import Mathlib

/-!
Verification development for the Paperback document-navigation subsystem.

The development shallowly embeds two components of the C++ sources:

* the text search engine (`find_text` in utils.cpp together with its two
  strategies `find_text_regex` and `find_text_literal`), and
* the TOC hierarchy builder (`build_toc_from_headings` in utils.cpp and
  `populate_toc_items` in rust_parser.cpp) with the cleanup pass
  (`cleanup_toc` in utils.cpp).

Modelling conventions:

* wxString values are modelled as `List Char`; `wxString::Lower` is
  `List.map Char.toLower`, `wxIsalnum` is `Char.isAlphanum`, and
  `wxNOT_FOUND` is `-1 : Int`.
* `std::regex` is an external library; a compiled pattern is modelled as an
  abstract occurrence predicate `occ : Nat → Nat → Nat → Bool`, where
  `occ cur i e` says that `std::regex_search(text + cur, text + e)` has a
  match starting at offset `i` (so `cur ≤ i ≤ e`; `i = e` is possible
  exactly for a match of the empty string at the window end).  The search
  start `cur` is a genuine argument because the code passes no
  `match_prev_avail` flag: the anchors `^` and `\b` are interpreted at
  `cur`, so whether a match starts at `i` can depend on where the search
  began.  `std::regex_search` returns the leftmost such start; the
  `try`/`catch` collapse of pattern compilation and matching errors is
  modelled by passing `none` for the compiled pattern.
* the C++ builders mutate a forest through raw pointers into children
  lists; a pointer to a children list is modelled by the access path of
  list indices leading to that list from the root forest (`[]` is the root
  forest itself, `i :: p` descends into the children of the `i`-th node).
-/

/-- wxWidgets not-found sentinel (`wxNOT_FOUND`). -/
def wxNOT_FOUND : Int := -1

/-- Conversion of an optional offset to the C++ `long` result
(`std::string::npos` cast to `long` compares equal to `wxNOT_FOUND`). -/
def optToLong : Option Nat → Int
  | none => wxNOT_FOUND
  | some n => (n : Int)

/-- The `find_options` bit-set from utils.hpp, modelled as four Booleans;
`has_option` is field access. -/
structure find_options where
  forward : Bool
  match_case : Bool
  match_whole_word : Bool
  use_regex : Bool

/-- Model of `wxIsalnum` (alphanumeric character classification). -/
def isAlnumChar (c : Char) : Bool := c.isAlphanum

/-- `occursAt hay ned i` holds when `ned` occurs in `hay` starting at
offset `i` (the occurrence lies entirely inside `hay`). -/
def occursAt (hay ned : List Char) (i : Nat) : Bool :=
  decide (i + ned.length ≤ hay.length) && decide ((hay.drop i).take ned.length = ned)

/-- Least `j < n` satisfying `P`, as the first hit of a scan of
`0, 1, ..., n-1`. -/
def minSat (P : Nat → Bool) (n : Nat) : Option Nat :=
  (List.range n).find? P

/-- Greatest `j < n` satisfying `P`, as the last hit of a scan of
`0, 1, ..., n-1`. -/
def maxSat (P : Nat → Bool) (n : Nat) : Option Nat :=
  ((List.range n).filter P).getLast?

/-- Model of `wxString::find(needle, start)`: least occurrence offset
that is at least `start`. -/
def findFrom (hay ned : List Char) (start : Nat) : Option Nat :=
  minSat (fun i => decide (start ≤ i) && occursAt hay ned i) (hay.length + 1)

/-- Model of `wxString::rfind(needle)` (no position argument): greatest
occurrence offset in the whole string. -/
def rfindIn (hay ned : List Char) : Option Nat :=
  maxSat (fun i => occursAt hay ned i) (hay.length + 1)

/-- The `word_start` boundary test of `find_text_literal`: the match
starts the buffer, or the character just before it is not alphanumeric.
It reads the original (not case-folded) haystack, as the code does. -/
def wordStartOk (hay : List Char) (c : Nat) : Bool :=
  decide (c = 0) || !(isAlnumChar (hay.getD (c - 1) ' '))

/-- The `word_end` boundary test of `find_text_literal`: the match ends
the buffer, or the character just after it is not alphanumeric. -/
def wordEndOk (hay : List Char) (e : Nat) : Bool :=
  decide (hay.length ≤ e) || !(isAlnumChar (hay.getD e ' '))

theorem findFrom_isSome_spec {hay ned : List Char} {start c : Nat}
    (h : findFrom hay ned start = some c) :
    start ≤ c ∧ occursAt hay ned c = true ∧
      ∀ j, start ≤ j → occursAt hay ned j = true → c ≤ j := by
  have hrange :
      ∀ n P c, minSat P n = some c → P c = true ∧ c < n ∧ ∀ j < c, P j = false := by
    intro n
    induction n with
    | zero => intro P c hc; simp [minSat] at hc
    | succ n ih =>
      intro P c hc
      rw [minSat, List.range_succ, List.find?_append] at hc
      rcases hfind : (List.range n).find? P with _ | d
      · rw [hfind] at hc
        by_cases hPn : P n = true
        · simp [List.find?, hPn] at hc
          subst hc
          refine ⟨hPn, Nat.lt_succ_self n, ?_⟩
          intro j hj
          by_contra hne
          simp only [Bool.not_eq_false] at hne
          have : (List.range n).find? P ≠ none := by
            intro hnone
            have := List.find?_eq_none.mp hnone j (by simpa using hj)
            simp [hne] at this
          exact this hfind
        · simp [List.find?, Bool.eq_false_iff.mpr hPn] at hc
      · rw [hfind] at hc
        simp at hc
        subst hc
        have := ih P d hfind
        exact ⟨this.1, Nat.lt_succ_of_lt this.2.1, this.2.2⟩
  have h0 := hrange _ _ _ h
  have hP := h0.1
  simp only [Bool.and_eq_true, decide_eq_true_eq] at hP
  refine ⟨hP.1, hP.2, ?_⟩
  intro j hj hoc
  by_contra hlt
  push_neg at hlt
  have := h0.2.2 j hlt
  simp [hj, hoc] at this

theorem occursAt_lt_length {hay ned : List Char} {c : Nat}
    (hne : ned ≠ []) (h : occursAt hay ned c = true) : c < hay.length := by
  simp only [occursAt, Bool.and_eq_true, decide_eq_true_eq] at h
  have : 1 ≤ ned.length := List.length_pos.mpr hne
  omega

theorem maxSat_spec {n : Nat} {P : Nat → Bool} {c : Nat}
    (h : maxSat P n = some c) :
    P c = true ∧ c < n ∧ ∀ j < n, P j = true → j ≤ c := by
  induction n with
  | zero => simp [maxSat] at h
  | succ n ih =>
    rw [maxSat, List.range_succ, List.filter_append] at h
    by_cases hPn : P n = true
    · simp [List.filter, hPn] at h
      subst h
      exact ⟨hPn, Nat.lt_succ_self n, fun j hj _ => by omega⟩
    · have hfil : List.filter P [n] = [] := by
        simp [List.filter, Bool.eq_false_iff.mpr hPn]
      rw [hfil, List.append_nil] at h
      have := ih h
      refine ⟨this.1, Nat.lt_succ_of_lt this.2.1, ?_⟩
      intro j hj hPj
      rcases Nat.lt_succ_iff_lt_or_eq.mp hj with hj' | hj'
      · exact this.2.2 j hj' hPj
      · subst hj'; exact absurd hPj hPn

theorem maxSat_eq_none {n : Nat} {P : Nat → Bool}
    (h : maxSat P n = none) : ∀ j < n, P j = false := by
  intro j hj
  by_contra hne
  simp only [Bool.not_eq_false] at hne
  have : (List.range n).filter P ≠ [] := by
    intro hnil
    have : j ∈ (List.range n).filter P := by
      simp [List.mem_filter, hne, List.mem_range, hj]
    simp [hnil] at this
  rw [maxSat, List.getLast?_eq_none_iff] at h
  exact this h

theorem maxSat_last_self {P : Nat → Bool} {i : Nat} (h : P i = true) :
    maxSat P (i + 1) = some i := by
  rw [maxSat, List.range_succ, List.filter_append]
  simp [List.filter, h]

theorem maxSat_ext {P : Nat → Bool} {m n : Nat} (hmn : n ≤ m)
    (h : ∀ i, n ≤ i → i < m → P i = false) : maxSat P m = maxSat P n := by
  obtain ⟨k, rfl⟩ := Nat.exists_eq_add_of_le hmn
  induction k with
  | zero => rfl
  | succ k ih =>
    rw [Nat.add_succ, maxSat, List.range_succ, List.filter_append]
    have hP : P (n + k) = false := h _ (by omega) (by omega)
    have : List.filter P [n + k] = [] := by simp [List.filter, hP]
    rw [this, List.append_nil, ← maxSat]
    exact ih (by omega) (fun i h1 h2 => h i h1 (by omega))

theorem rfindIn_le_length {hay ned : List Char} {c : Nat}
    (h : rfindIn hay ned = some c) : c ≤ hay.length := by
  have := maxSat_spec h
  omega

/-- The whole-word candidate loop of `find_text_literal`, forward case:
the search runs over the (possibly case-folded) `shay`/`sned`, the
boundary tests over the original `hay`.  After a rejected candidate `c`
the search position becomes `c + 1`; the loop breaks with `wxNOT_FOUND`
once that position reaches the end of the buffer. -/
def wwLoopF (hay shay sned : List Char) (pos : Nat) : Int :=
  match h : findFrom shay sned pos with
  | none => wxNOT_FOUND
  | some c =>
    if wordStartOk hay c && wordEndOk hay (c + sned.length) then (c : Int)
    else if hay.length ≤ c + 1 then wxNOT_FOUND
    else wwLoopF hay shay sned (c + 1)
termination_by hay.length - pos
decreasing_by
  have := (findFrom_isSome_spec h).1
  omega

/-- The whole-word candidate loop of `find_text_literal`, backward case:
each candidate is the rightmost occurrence inside the prefix
`shay.take pos` (the model of `Left(pos).rfind`); after a rejected
candidate `c` the window shrinks to `c - 1`, and the loop breaks with
`wxNOT_FOUND` when that would be negative. -/
def wwLoopB (hay shay sned : List Char) (pos : Nat) : Int :=
  match h : rfindIn (shay.take pos) sned with
  | none => wxNOT_FOUND
  | some c =>
    if wordStartOk hay c && wordEndOk hay (c + sned.length) then (c : Int)
    else if c = 0 then wxNOT_FOUND
    else wwLoopB hay shay sned (c - 1)
termination_by pos
decreasing_by
  have h1 := rfindIn_le_length h
  have h2 : (shay.take pos).length ≤ pos := by
    simp [List.length_take]
  omega

/-- `find_text_literal` from utils.cpp.  Case folding is applied to both
strings unless `match_case`; without `match_whole_word` the result is a
plain substring search (forward from `start`, or backward inside the
prefix of length `start`); with it, the candidate loop runs in the
requested direction. -/
def find_text_literal (hay ned : List Char) (start : Nat)
    (options : find_options) : Int :=
  let shay := if options.match_case then hay else hay.map Char.toLower
  let sned := if options.match_case then ned else ned.map Char.toLower
  if !options.match_whole_word then
    if options.forward then optToLong (findFrom shay sned start)
    else optToLong (rfindIn (shay.take start) sned)
  else
    if options.forward then wwLoopF hay shay sned start
    else wwLoopB hay shay sned start

/-- Model of `std::regex_search(text + cur, text + e, m, rx)` for a
compiled pattern `occ`: the leftmost match start `i` with
`cur ≤ i ≤ e` (a match of the empty string can start at `e` itself).
The pattern sees the search start `cur`: with the code's default match
flags, `^` and `\b` anchor at `cur` itself. -/
def regexSearch (occ : Nat → Nat → Nat → Bool) (cur e : Nat) : Option Nat :=
  minSat (fun i => decide (cur ≤ i) && occ cur i e) (e + 1)

theorem regexSearch_isSome_spec {occ : Nat → Nat → Nat → Bool} {cur e i : Nat}
    (h : regexSearch occ cur e = some i) :
    cur ≤ i ∧ i ≤ e ∧ occ cur i e = true ∧
      ∀ j, cur ≤ j → occ cur j e = true → j ≤ e → i ≤ j := by
  have hrange :
      ∀ n P c, minSat P n = some c → P c = true ∧ c < n ∧ ∀ j < c, P j = false := by
    intro n
    induction n with
    | zero => intro P c hc; simp [minSat] at hc
    | succ n ih =>
      intro P c hc
      rw [minSat, List.range_succ, List.find?_append] at hc
      rcases hfind : (List.range n).find? P with _ | d
      · rw [hfind] at hc
        by_cases hPn : P n = true
        · simp [List.find?, hPn] at hc
          subst hc
          refine ⟨hPn, Nat.lt_succ_self n, ?_⟩
          intro j hj
          by_contra hne
          simp only [Bool.not_eq_false] at hne
          have : (List.range n).find? P ≠ none := by
            intro hnone
            have := List.find?_eq_none.mp hnone j (by simpa using hj)
            simp [hne] at this
          exact this hfind
        · simp [List.find?, Bool.eq_false_iff.mpr hPn] at hc
      · rw [hfind] at hc
        simp at hc
        subst hc
        have := ih P d hfind
        exact ⟨this.1, Nat.lt_succ_of_lt this.2.1, this.2.2⟩
  have h0 := hrange _ _ _ h
  have hP := h0.1
  simp only [Bool.and_eq_true, decide_eq_true_eq] at hP
  refine ⟨hP.1, by omega, hP.2, ?_⟩
  intro j hcj hj hje
  by_contra hlt
  push_neg at hlt
  have := h0.2.2 j hlt
  simp [hcj, hj] at this

/-- The backward synthesis loop of `find_text_regex`: starting from
cursor `0`, repeatedly forward-search the window ending at `e`; each
match start becomes the current `last` and the cursor advances one past
it; the loop stops when the cursor passes `e` or no match remains. -/
def regexBackLoop (occ : Nat → Nat → Nat → Bool) (e cur : Nat) (last : Int) : Int :=
  if e < cur then last
  else
    match h : regexSearch occ cur e with
    | none => last
    | some i => regexBackLoop occ e (i + 1) (i : Int)
termination_by e + 1 - cur
decreasing_by
  have := (regexSearch_isSome_spec h).1
  omega

/-- `find_text_regex` from utils.cpp.  The compiled pattern is the
abstract `rx : Option (Nat → Nat → Nat → Bool)`; `none` stands for the
`try`/`catch` path (the pattern failed to compile, or matching raised),
which yields `wxNOT_FOUND`.  The `match_case`/`match_whole_word` options
only influence which pattern gets compiled, so they are absorbed into
`rx` itself; `start` is clamped to the text length as in the code. -/
def find_text_regex (rx : Option (Nat → Nat → Nat → Bool)) (hayLen start : Nat)
    (options : find_options) : Int :=
  match rx with
  | none => wxNOT_FOUND
  | some occ =>
    if options.forward then optToLong (regexSearch occ (min start hayLen) hayLen)
    else regexBackLoop occ (min start hayLen) 0 wxNOT_FOUND

/-- `find_text` from utils.cpp: empty needles are rejected up front,
then the query dispatches on `use_regex`. -/
def find_text (rx : Option (Nat → Nat → Nat → Bool)) (hay ned : List Char)
    (start : Nat) (options : find_options) : Int :=
  if ned = [] then wxNOT_FOUND
  else if options.use_regex then find_text_regex rx hay.length start options
  else find_text_literal hay ned start options

/-- A navigation node (`struct toc_item`): display name, anchor
reference, buffer offset, and exclusively owned ordered children. -/
structure TocItem where
  name : String
  ref : String
  offset : Int
  children : List TocItem

/-- The `(name, offset)` identity of a node, as used by the claims
about traversal order. -/
def nameOff (n : TocItem) : String × Int := (n.name, n.offset)

/-- Look up the children list addressed by a path (`[]` is the root
forest itself; out-of-range indices yield `none`, which the builders
never produce). -/
def getListAt : List TocItem → List Nat → Option (List TocItem)
  | l, [] => some l
  | l, i :: p =>
    match l[i]? with
    | some n => getListAt n.children p
    | none => none

/-- Length of the children list addressed by a path (the `size()` of the
list a slot pointer refers to). -/
def lengthAt : List TocItem → List Nat → Nat
  | l, [] => l.length
  | l, i :: p =>
    match l[i]? with
    | some n => lengthAt n.children p
    | none => 0

/-- `appendAt l p x` models `parent_list->push_back(std::move(item))`
where `parent_list` is the children list addressed by `p`. -/
def appendAt : List TocItem → List Nat → TocItem → List TocItem
  | l, [], x => l ++ [x]
  | l, i :: p, x =>
    match l[i]? with
    | some n => l.set i ⟨n.name, n.ref, n.offset, appendAt n.children p x⟩
    | none => l

/-- A path is rightmost when every step descends into the last node of
the respective list; every live slot of the builders addresses the
children of a node on the rightmost spine. -/
def isRightmost : List Nat → List TocItem → Bool
  | [], _ => true
  | i :: p, l =>
    match l[i]? with
    | some n => decide (i + 1 = l.length) && isRightmost p n.children
    | none => false

/-- The `nameOff` identity of the node owning the list addressed by a
path, with `par` the identity owning the root list (`none` at the real
root). -/
def ownerAt : List TocItem → Option (String × Int) → List Nat → Option (String × Int)
  | _, par, [] => par
  | l, _, i :: p =>
    match l[i]? with
    | some n => ownerAt n.children (some (nameOff n)) p
    | none => none

/-- Pre-order traversal emitting, for every node, the pair
(identity of its parent node, identity of the node); `par` is the
identity of the owner of the traversed list. -/
def pairsList (par : Option (String × Int)) :
    List TocItem → List (Option (String × Int) × (String × Int))
  | [] => []
  | TocItem.mk nm rf off cs :: rest =>
    (par, (nm, off)) ::
      (pairsList (some (nm, off)) cs ++ pairsList par rest)
termination_by l => sizeOf l
decreasing_by
  all_goals (simp <;> omega)

/-- Pre-order traversal emitting the `(name, offset)` pairs of all
nodes of a forest. -/
def preorderList : List TocItem → List (String × Int)
  | [] => []
  | TocItem.mk nm _ off cs :: rest =>
    (nm, off) :: (preorderList cs ++ preorderList rest)
termination_by l => sizeOf l
decreasing_by
  all_goals (simp <;> omega)

/-- A structural event as consumed by the generic builder core: a
nesting level together with the payload of the node it creates. -/
structure GEvent where
  level : Int
  name : String
  ref : String
  offset : Int

/-- Builder state: the root forest under construction and the slot
array (`level_stacks`/`depth_stacks`); slot `i` holds the path of the
children list it points at, or `none` when the slot is cleared. -/
structure BuildSt where
  result : List TocItem
  slots : Nat → Option (List Nat)

/-- The downward scan `for (i = top; i >= 0; --i) if (slots[i]) ...`:
first non-empty slot at `top, top - 1, ..., 0`. -/
def scanSlots (slots : Nat → Option (List Nat)) : Nat → Option (List Nat)
  | 0 => slots 0
  | i + 1 => (slots (i + 1)).orElse (fun _ => scanSlots slots i)

/-- Initial builder state: slot `0` points at the root forest (which may
already hold items, as `populate_toc_items` appends into the list it is
given), all other slots empty. -/
def initSt (r : List TocItem) : BuildSt :=
  { result := r, slots := fun i => if i = 0 then some [] else none }

/-- One loop iteration shared by both builders (levels shifted so that
the root slot is `0` and events carry levels in `[1, maxL]`):
out-of-range events are dropped; otherwise the parent list is the first
non-empty slot at `level - 1, ..., 0` (with the root forest as the
`nullptr` fallback), the new node is appended to it, slot `level` is
pointed at the new node's children, and all higher slots are cleared. -/
def genStep (maxL : Nat) (st : BuildSt) (e : GEvent) : BuildSt :=
  if e.level < 1 ∨ (maxL : Int) < e.level then st
  else
    let L : Nat := e.level.toNat
    let parent : List Nat := (scanSlots st.slots (L - 1)).getD []
    let idx : Nat := lengthAt st.result parent
    { result := appendAt st.result parent ⟨e.name, e.ref, e.offset, []⟩
      slots := fun i =>
        if i = L then some (parent ++ [idx])
        else if L < i then none
        else st.slots i }

/-- Generic builder: fold the step over the event stream starting from
the empty forest. -/
def genBuild (maxL : Nat) (events : List GEvent) : List TocItem :=
  (events.foldl (genStep maxL) (initSt [])).result

/-- Modelled from the spec: `MAX_HEADING_LEVELS` lives in the repository's
constants.hpp, which is not among the provided sources; the spec fixes
the valid heading range as `[1, MAX_LEVEL]` with `MAX_LEVEL = 6`. -/
def MAX_HEADING_LEVELS : Nat := 6

/-- A heading marker as returned by
`document_buffer::get_heading_markers`: text, buffer position, level. -/
structure HeadingMarker where
  text : String
  pos : Nat
  level : Int

/-- The `GEvent` made from a heading marker by the loop body of
`build_toc_from_headings` (`item->name = marker->text`,
`item->offset = static_cast<int>(marker->pos)`, reference left empty). -/
def eventOfMarker (m : HeadingMarker) : GEvent :=
  ⟨m.level, m.text, "", (m.pos : Int)⟩

/-- `build_toc_from_headings` from utils.cpp: early return on an empty
marker list, then the slot-array loop over the markers; slot use is
`genStep MAX_HEADING_LEVELS` verbatim (scan starts at `level - 1`, slot
`level` is set, slots above `level` are cleared). -/
def build_toc_from_headings (heading_markers : List HeadingMarker) : List TocItem :=
  if heading_markers.isEmpty then []
  else ((heading_markers.map eventOfMarker).foldl
    (genStep MAX_HEADING_LEVELS) (initSt [])).result

/-- `MAX_DEPTH` from `populate_toc_items` in rust_parser.cpp. -/
def MAX_DEPTH : Nat := 32

/-- An `FfiTocItem` as consumed by `populate_toc_items`: name, anchor
reference, buffer offset and nesting depth. -/
structure FfiTocItem where
  name : String
  reference : String
  offset : Int
  depth : Int

/-- One loop iteration of `populate_toc_items` from rust_parser.cpp,
written with the source's own depth indexing: events with
`depth < 0 || depth > MAX_DEPTH` are dropped; the parent scan starts at
`depth` (slot `0` being the given root list), slot `depth + 1` is
pointed at the new node's children and slots from `depth + 2` up are
cleared (the C++ clear loop stops at `MAX_DEPTH`; the model clears every
higher index, which is indistinguishable because the parent scan never
reads above `MAX_DEPTH` — note also that at `depth = MAX_DEPTH` the C++
write to `depth_stacks[depth + 1]` is one past the vector's end). -/
def populate_step (st : BuildSt) (t : FfiTocItem) : BuildSt :=
  if t.depth < 0 ∨ (MAX_DEPTH : Int) < t.depth then st
  else
    let d : Nat := t.depth.toNat
    let parent : List Nat := (scanSlots st.slots d).getD []
    let idx : Nat := lengthAt st.result parent
    { result := appendAt st.result parent ⟨t.name, t.reference, t.offset, []⟩
      slots := fun i =>
        if i = d + 1 then some (parent ++ [idx])
        else if d + 1 < i then none
        else st.slots i }

/-- `populate_toc_items` from rust_parser.cpp: early return on an empty
FFI list, then the depth-stack loop appending into the given
`toc_items` list. -/
def populate_toc_items (toc_items : List TocItem)
    (ffi_toc_items : List FfiTocItem) : List TocItem :=
  if ffi_toc_items.isEmpty then toc_items
  else (ffi_toc_items.foldl populate_step (initSt toc_items)).result

/-- The `GEvent` view of an FFI TOC entry: depth `d` behaves exactly
like level `d + 1` of the generic core. -/
def eventOfFfi (t : FfiTocItem) : GEvent :=
  ⟨t.depth + 1, t.name, t.reference, t.offset⟩

/-- Model of `wxString::CmpNoCase(...) == 0`: case-insensitive equality,
comparing the character sequences after case folding. -/
def nameEqCI (a b : String) : Bool :=
  (a.toList.map Char.toLower) == (b.toList.map Char.toLower)

/-- The collapse check of `cleanup_toc` applied to one node: if the node
has a first child with (case-insensitively) the same name, and the
references agree or the node's is empty, the first child is removed and
its children are spliced at the front; an empty reference additionally
adopts the first child's reference and offset.  Other nodes are left
unchanged. -/
def collapseCheck (n : TocItem) : TocItem :=
  match n.children with
  | [] => n
  | first :: rest =>
    if nameEqCI n.name first.name && (n.ref == first.ref || n.ref == "") then
      if n.ref == "" && first.ref != "" then
        ⟨n.name, first.ref, first.offset, first.children ++ rest⟩
      else
        ⟨n.name, n.ref, n.offset, first.children ++ rest⟩
    else n

/-- The collapse predicate of `cleanup_toc` (the condition of its `if`). -/
def collapsePred (n : TocItem) : Bool :=
  match n.children with
  | [] => false
  | first :: _ =>
    nameEqCI n.name first.name && (n.ref == first.ref || n.ref == "")

theorem sizeOf_list_append (l1 l2 : List TocItem) :
    sizeOf (l1 ++ l2) + 1 = sizeOf l1 + sizeOf l2 := by
  induction l1 with
  | nil => simp <;> omega
  | cons a t ih => simp at ih ⊢ <;> omega

theorem collapseCheck_children_cases (nm rf : String) (off : Int)
    (first : TocItem) (rest : List TocItem) :
    (collapseCheck ⟨nm, rf, off, first :: rest⟩).children = first.children ++ rest ∨
    (collapseCheck ⟨nm, rf, off, first :: rest⟩).children = first :: rest := by
  simp only [collapseCheck]
  by_cases h1 : (nameEqCI nm first.name && (rf == first.ref || rf == "")) = true
  · rw [if_pos h1]
    by_cases h2 : (rf == "" && first.ref != "") = true
    · rw [if_pos h2]; left; rfl
    · rw [if_neg h2]; left; rfl
  · rw [if_neg h1]; right; rfl

theorem collapseCheck_children_sizeOf (n : TocItem) :
    sizeOf (collapseCheck n).children < sizeOf n := by
  rcases n with ⟨nm, rf, off, cs⟩
  rcases cs with _ | ⟨first, rest⟩
  · have h : collapseCheck ⟨nm, rf, off, []⟩ = ⟨nm, rf, off, []⟩ := rfl
    rw [h]
    simp <;> omega
  · have hfc : sizeOf first.children < sizeOf first := by
      rcases first with ⟨a, b, d, e⟩
      simp <;> omega
    rcases collapseCheck_children_cases nm rf off first rest with hc | hc <;> rw [hc]
    · have happ := sizeOf_list_append first.children rest
      simp at happ ⊢ <;> omega
    · simp <;> omega

mutual

/-- `cleanup_toc`'s per-item work: run the collapse check once, then
recurse into the (possibly spliced) children list. -/
def cleanupItem (n : TocItem) : TocItem :=
  ⟨(collapseCheck n).name, (collapseCheck n).ref, (collapseCheck n).offset,
    cleanupList (collapseCheck n).children⟩
termination_by sizeOf n
decreasing_by
  exact collapseCheck_children_sizeOf n

/-- `cleanup_toc` over a forest: every item is checked, in order, and
then its children are cleaned. -/
def cleanupList (l : List TocItem) : List TocItem :=
  match l with
  | [] => []
  | n :: rest => cleanupItem n :: cleanupList rest
termination_by sizeOf l
decreasing_by
  all_goals (simp <;> omega)

end

/-- Whether a generic event's level lies in the valid range `[1, maxL]`
(the negation of the drop condition of the builder loops). -/
def inRangeG (maxL : Nat) (e : GEvent) : Bool :=
  decide (1 ≤ e.level) && decide (e.level ≤ (maxL : Int))

/-- The `(name, offset)` identity of the node an event creates. -/
def nameOffE (e : GEvent) : String × Int := (e.name, e.offset)

/-- The last event of `es` whose level is at most `i`.  For the slot
invariant: slot `i` of the builder is live exactly when this event has
level exactly `i`, and then the slot addresses that event's node. -/
def lastLE (es : List GEvent) (i : Nat) : Option GEvent :=
  (es.filter (fun e => decide (e.level ≤ (i : Int)))).getLast?

/-- The spec's words: the nearest preceding event with strictly smaller
level among the already-processed events. -/
def prevSmaller (es : List GEvent) (L : Int) : Option GEvent :=
  (es.filter (fun e => decide (e.level < L))).getLast?

/-- The claim's parent/child relation, written from the spec's words:
walking the events in order, every in-range event is emitted as the pair
(identity of the nearest preceding in-range event with strictly smaller
level, or `none` for the root forest; identity of the event itself);
out-of-range events are dropped. -/
def specPairsAux (maxL : Nat) (acc : List GEvent) :
    List GEvent → List (Option (String × Int) × (String × Int))
  | [] => []
  | e :: rest =>
    if inRangeG maxL e then
      ((prevSmaller acc e.level).map nameOffE, nameOffE e) ::
        specPairsAux maxL (acc ++ [e]) rest
    else specPairsAux maxL acc rest

/-- `specPairs maxL es`: the parent/child pairs demanded by the spec for
the whole event stream. -/
def specPairs (maxL : Nat) (es : List GEvent) :
    List (Option (String × Int) × (String × Int)) :=
  specPairsAux maxL [] es

/-- `PathLe p q` says `p` is an initial segment of the path `q`. -/
def PathLe (p q : List Nat) : Prop := ∃ r, q = p ++ r

theorem PathLe.rfl {p : List Nat} : PathLe p p := ⟨[], by simp⟩

theorem PathLe.nil {q : List Nat} : PathLe [] q := ⟨q, by simp⟩

theorem PathLe.trans {p q r : List Nat} (h1 : PathLe p q) (h2 : PathLe q r) :
    PathLe p r := by
  obtain ⟨a, rfl⟩ := h1
  obtain ⟨b, rfl⟩ := h2
  exact ⟨a ++ b, by simp⟩

theorem PathLe.concat {p : List Nat} {x : Nat} : PathLe p (p ++ [x]) := ⟨[x], by simp⟩

theorem PathLe.cons_cons {i j : Nat} {p q : List Nat}
    (h : PathLe (i :: p) (j :: q)) : i = j ∧ PathLe p q := by
  obtain ⟨r, hr⟩ := h
  simp at hr
  exact ⟨hr.1.symm, ⟨r, hr.2⟩⟩

theorem lastLE_concat (es : List GEvent) (e : GEvent) (i : Nat) :
    lastLE (es ++ [e]) i =
      if e.level ≤ (i : Int) then some e else lastLE es i := by
  rw [lastLE, List.filter_append]
  by_cases h : e.level ≤ (i : Int)
  · simp [List.filter, h, List.getLast?_concat]
  · simp [lastLE, List.filter, h]

theorem prevSmaller_concat (es : List GEvent) (e : GEvent) (L : Int) :
    prevSmaller (es ++ [e]) L =
      if e.level < L then some e else prevSmaller es L := by
  rw [prevSmaller, List.filter_append]
  by_cases h : e.level < L
  · simp [List.filter, h, List.getLast?_concat]
  · simp [prevSmaller, List.filter, h]

theorem filter_getLast?_decomp {p : GEvent → Bool} {es : List GEvent} {a : GEvent}
    (h : (es.filter p).getLast? = some a) :
    ∃ u v, es = u ++ a :: v ∧ p a = true ∧ ∀ x ∈ v, p x = false := by
  induction es using List.reverseRecOn with
  | nil => simp at h
  | append_singleton l x ih =>
    rw [List.filter_append] at h
    by_cases hx : p x = true
    · simp [List.filter, hx, List.getLast?_concat] at h
      subst h
      exact ⟨l, [], by simp, hx, by simp⟩
    · have : List.filter p [x] = [] := by
        simp [List.filter, Bool.eq_false_iff.mpr hx]
      rw [this, List.append_nil] at h
      obtain ⟨u, v, rfl, hpa, hv⟩ := ih h
      refine ⟨u, v ++ [x], by simp, hpa, ?_⟩
      intro y hy
      rcases List.mem_append.mp hy with hy' | hy'
      · exact hv y hy'
      · simp at hy'
        subst hy'
        exact Bool.eq_false_iff.mpr hx

theorem lastLE_of_decomp {u v : List GEvent} {a : GEvent} {L : Int} {i : Nat}
    (hv : ∀ x ∈ v, ¬(x.level < L)) (ha : a.level ≤ (i : Int)) (hi : (i : Int) < L) :
    lastLE (u ++ a :: v) i = some a := by
  rw [lastLE, List.filter_append]
  have hfv : (a :: v).filter (fun e => decide (e.level ≤ (i : Int))) = [a] := by
    simp only [List.filter, ha, decide_True]
    rw [List.filter_eq_nil_iff.mpr]
    intro x hx
    have := hv x hx
    simp
    omega
  rw [hfv, List.getLast?_concat]

theorem lastLE_none_of_prevSmaller_none {es : List GEvent} {L : Int} {i : Nat}
    (h : prevSmaller es L = none) (hi : (i : Int) < L) : lastLE es i = none := by
  rw [prevSmaller, List.getLast?_eq_none_iff] at h
  have hall := List.filter_eq_nil_iff.mp h
  rw [lastLE, List.getLast?_eq_none_iff, List.filter_eq_nil_iff]
  intro x hx
  have := hall x hx
  simp at this ⊢
  omega

theorem scanSlots_of_some {slots : Nat → Option (List Nat)} {m : Nat} {p : List Nat}
    (h : slots m = some p) : scanSlots slots m = some p := by
  cases m with
  | zero => simpa [scanSlots] using h
  | succ j => simp [scanSlots, h, Option.orElse]

theorem scanSlots_eq_low {slots : Nat → Option (List Nat)} {m k : Nat}
    (hmk : m ≤ k) (h : ∀ i, m < i → i ≤ k → slots i = none) :
    scanSlots slots k = scanSlots slots m := by
  induction k with
  | zero => have : m = 0 := by omega
            subst this; rfl
  | succ j ih =>
    rcases Nat.eq_or_lt_of_le hmk with he | hlt
    · subst he; rfl
    · have hnone : slots (j + 1) = none := h _ (by omega) (by omega)
      rw [scanSlots, hnone]
      simp [Option.orElse]
      exact ih (by omega) (fun i h1 h2 => h i h1 (by omega))

theorem getElem?_concat_self {α} (l : List α) (x : α) : (l ++ [x])[l.length]? = some x := by
  rw [List.getElem?_append_right (Nat.le_refl _)]
  simp

theorem last_decomp {α} : ∀ (l : List α) (i : Nat) (n : α), i + 1 = l.length → l[i]? = some n →
    l.take i ++ [n] = l ∧ ∀ n' : α, l.set i n' = l.take i ++ [n']
  | [], i, n, h1, h2 => by simp at h1
  | a :: t, 0, n, h1, h2 => by
    have ht : t = [] := by
      have : t.length = 0 := by simpa using h1.symm
      exact List.length_eq_zero.mp this
    subst ht
    have : n = a := by simpa using h2.symm
    subst this
    simp
  | a :: t, i + 1, n, h1, h2 => by
    have h1' : i + 1 = t.length := by simpa using h1
    have h2' : t[i]? = some n := by simpa using h2
    have ih := last_decomp t i n h1' h2'
    constructor
    · simpa using ih.1
    · intro n'
      simpa using ih.2 n'

theorem getElem?_set_last {α} {l : List α} {i : Nat} {n : α} (n' : α)
    (h1 : i + 1 = l.length) (h2 : l[i]? = some n) : (l.set i n')[i]? = some n' := by
  rw [(last_decomp l i n h1 h2).2 n']
  have hlen : (l.take i).length = i := by
    rw [List.length_take]
    omega
  calc (l.take i ++ [n'])[i]? = (l.take i ++ [n'])[(l.take i).length]? := by rw [hlen]
    _ = some n' := getElem?_concat_self _ _

theorem pairsList_append (par : Option (String × Int)) (l1 l2 : List TocItem) :
    pairsList par (l1 ++ l2) = pairsList par l1 ++ pairsList par l2 := by
  induction l1 with
  | nil => simp [pairsList]
  | cons n t ih =>
    rcases n with ⟨nm, rf, off, cs⟩
    simp [pairsList, ih]

theorem pairsList_appendAt : ∀ (p : List Nat) (l : List TocItem)
    (par : Option (String × Int)) (x : TocItem),
    isRightmost p l = true → x.children = [] →
    pairsList par (appendAt l p x) = pairsList par l ++ [(ownerAt l par p, nameOff x)]
  | [], l, par, x, _, hx => by
    rcases x with ⟨nm, rf, off, cs⟩
    simp at hx
    subst hx
    simp [appendAt, ownerAt, pairsList_append, pairsList, nameOff]
  | i :: p, l, par, x, hrm, hx => by
    rcases hl : l[i]? with _ | n
    · rw [isRightmost, hl] at hrm
      simp at hrm
    · rcases n with ⟨nm, rf, off, cs⟩
      rw [isRightmost, hl] at hrm
      simp only [Bool.and_eq_true, decide_eq_true_eq] at hrm
      obtain ⟨hlen, hrm'⟩ := hrm
      have hdec := last_decomp l i _ hlen hl
      have hstep : appendAt l (i :: p) x =
          l.set i ⟨nm, rf, off, appendAt cs p x⟩ := by
        simp [appendAt, hl]
      rw [hstep]
      rw [hdec.2]
      conv_rhs => rw [← hdec.1]
      rw [pairsList_append, pairsList_append]
      have hih := pairsList_appendAt p cs (some (nm, off)) x hrm' hx
      have hlen2 : (List.take i l).length = i := by
        rw [List.length_take]
        omega
      have hget := getElem?_concat_self (List.take i l) (⟨nm, rf, off, cs⟩ : TocItem)
      rw [hlen2] at hget
      have howner2 : ownerAt (List.take i l ++ [(⟨nm, rf, off, cs⟩ : TocItem)]) par (i :: p)
          = ownerAt cs (some (nm, off)) p := by
        simp [ownerAt, hget, nameOff]
      rw [howner2]
      simp [pairsList, hih]

theorem ownerAt_appendAt : ∀ (q p : List Nat) (l : List TocItem)
    (par : Option (String × Int)) (x : TocItem),
    PathLe q p → isRightmost p l = true →
    ownerAt (appendAt l p x) par q = ownerAt l par q
  | [], p, l, par, x, _, _ => by simp [ownerAt]
  | i :: q, p, l, par, x, hq, hrm => by
    rcases p with _ | ⟨j, p⟩
    · obtain ⟨r, hr⟩ := hq
      simp at hr
    · obtain ⟨hij, hq'⟩ := PathLe.cons_cons hq
      subst hij
      rcases hl : l[i]? with _ | n
      · rw [isRightmost, hl] at hrm
        simp at hrm
      · rcases n with ⟨nm, rf, off, cs⟩
        rw [isRightmost, hl] at hrm
        simp only [Bool.and_eq_true, decide_eq_true_eq] at hrm
        obtain ⟨hlen, hrm'⟩ := hrm
        have hstep : appendAt l (i :: p) x =
            l.set i ⟨nm, rf, off, appendAt cs p x⟩ := by
          simp [appendAt, hl]
        rw [hstep]
        have hget := getElem?_set_last (⟨nm, rf, off, appendAt cs p x⟩ : TocItem) hlen hl
        simp only [ownerAt, hget, hl]
        exact ownerAt_appendAt q p cs _ x hq' hrm'

theorem isRightmost_appendAt : ∀ (q p : List Nat) (l : List TocItem) (x : TocItem),
    PathLe q p → isRightmost p l = true →
    isRightmost q (appendAt l p x) = true
  | [], p, l, x, _, _ => by simp [isRightmost]
  | i :: q, p, l, x, hq, hrm => by
    rcases p with _ | ⟨j, p⟩
    · obtain ⟨r, hr⟩ := hq
      simp at hr
    · obtain ⟨hij, hq'⟩ := PathLe.cons_cons hq
      subst hij
      rcases hl : l[i]? with _ | n
      · rw [isRightmost, hl] at hrm
        simp at hrm
      · rcases n with ⟨nm, rf, off, cs⟩
        rw [isRightmost, hl] at hrm
        simp only [Bool.and_eq_true, decide_eq_true_eq] at hrm
        obtain ⟨hlen, hrm'⟩ := hrm
        have hstep : appendAt l (i :: p) x =
            l.set i ⟨nm, rf, off, appendAt cs p x⟩ := by
          simp [appendAt, hl]
        rw [hstep]
        have hget := getElem?_set_last (⟨nm, rf, off, appendAt cs p x⟩ : TocItem) hlen hl
        rw [isRightmost, hget]
        simp only [List.length_set, Bool.and_eq_true, decide_eq_true_eq]
        exact ⟨hlen, isRightmost_appendAt q p cs x hq' hrm'⟩

theorem isRightmost_appendAt_new : ∀ (p : List Nat) (l : List TocItem) (x : TocItem),
    isRightmost p l = true →
    isRightmost (p ++ [lengthAt l p]) (appendAt l p x) = true
  | [], l, x, _ => by
    have hget := getElem?_concat_self l x
    simp only [appendAt, lengthAt, List.nil_append]
    rw [isRightmost, hget]
    simp [isRightmost]
  | i :: p, l, x, hrm => by
    rcases hl : l[i]? with _ | n
    · rw [isRightmost, hl] at hrm
      simp at hrm
    · rcases n with ⟨nm, rf, off, cs⟩
      rw [isRightmost, hl] at hrm
      simp only [Bool.and_eq_true, decide_eq_true_eq] at hrm
      obtain ⟨hlen, hrm'⟩ := hrm
      have hstep : appendAt l (i :: p) x =
          l.set i ⟨nm, rf, off, appendAt cs p x⟩ := by
        simp [appendAt, hl]
      have hlenAt : lengthAt l (i :: p) = lengthAt cs p := by
        simp [lengthAt, hl]
      rw [hstep, hlenAt, List.cons_append]
      have hget := getElem?_set_last (⟨nm, rf, off, appendAt cs p x⟩ : TocItem) hlen hl
      rw [isRightmost, hget]
      simp only [List.length_set, Bool.and_eq_true, decide_eq_true_eq]
      exact ⟨hlen, isRightmost_appendAt_new p cs x hrm'⟩

theorem ownerAt_appendAt_new : ∀ (p : List Nat) (l : List TocItem)
    (par : Option (String × Int)) (x : TocItem),
    isRightmost p l = true →
    ownerAt (appendAt l p x) par (p ++ [lengthAt l p]) = some (nameOff x)
  | [], l, par, x, _ => by
    have hget := getElem?_concat_self l x
    simp only [appendAt, lengthAt, List.nil_append]
    rw [ownerAt, hget]
    rfl
  | i :: p, l, par, x, hrm => by
    rcases hl : l[i]? with _ | n
    · rw [isRightmost, hl] at hrm
      simp at hrm
    · rcases n with ⟨nm, rf, off, cs⟩
      rw [isRightmost, hl] at hrm
      simp only [Bool.and_eq_true, decide_eq_true_eq] at hrm
      obtain ⟨hlen, hrm'⟩ := hrm
      have hstep : appendAt l (i :: p) x =
          l.set i ⟨nm, rf, off, appendAt cs p x⟩ := by
        simp [appendAt, hl]
      have hlenAt : lengthAt l (i :: p) = lengthAt cs p := by
        simp [lengthAt, hl]
      rw [hstep, hlenAt, List.cons_append]
      have hget := getElem?_set_last (⟨nm, rf, off, appendAt cs p x⟩ : TocItem) hlen hl
      rw [ownerAt, hget]
      exact ownerAt_appendAt_new p cs _ x hrm'

/-- The builder invariant.  After processing the accepted events `acc`:
slot `0` still addresses the root forest; every live slot addresses a
list on the rightmost spine; live slots are linearly ordered by path
extension; slot `i ≥ 1` is live exactly when the last accepted event of
level at most `i` has level exactly `i`, and then the slot addresses
that event's node. -/
structure BInv (maxL : Nat) (acc : List GEvent) (st : BuildSt) : Prop where
  root : st.slots 0 = some []
  rightmost : ∀ i p, st.slots i = some p → isRightmost p st.result = true
  chain : ∀ i j p q, i ≤ j → st.slots i = some p → st.slots j = some q → PathLe p q
  live : ∀ i, 1 ≤ i →
    ((st.slots i).isSome ↔ ∃ e, lastLE acc i = some e ∧ e.level = (i : Int))
  owner : ∀ i p, 1 ≤ i → st.slots i = some p →
    ∃ e, lastLE acc i = some e ∧ e.level = (i : Int) ∧
      ownerAt st.result none p = some (nameOffE e)
  bounded : ∀ e ∈ acc, inRangeG maxL e = true

theorem BInv.init (maxL : Nat) (r : List TocItem) : BInv maxL [] (initSt r) := by
  refine ⟨rfl, ?_, ?_, ?_, ?_, ?_⟩
  · intro i p hp
    simp only [initSt] at hp
    by_cases hi : i = 0
    · subst hi
      simp at hp
      subst hp
      simp [isRightmost]
    · simp [hi] at hp
  · intro i j p q _ hp hq
    simp only [initSt] at hp hq
    by_cases hi : i = 0
    · subst hi
      simp at hp
      subst hp
      exact PathLe.nil
    · simp [hi] at hp
  · intro i hi
    simp only [initSt]
    rw [if_neg (by omega)]
    simp [lastLE]
  · intro i p hi hp
    simp only [initSt] at hp
    rw [if_neg (by omega)] at hp
    cases hp
  · intro e he
    cases he

/-- The parent chosen by the downward scan: its owner is exactly the
nearest preceding accepted event with smaller level (the root forest
when there is none), and every live slot strictly below the event's
level addresses a list on the path to it. -/
theorem scan_parent {maxL : Nat} {acc : List GEvent} {st : BuildSt}
    (h : BInv maxL acc st) {lev : Int} (h1 : 1 ≤ lev) :
    ∃ parent, scanSlots st.slots (lev.toNat - 1) = some parent ∧
      isRightmost parent st.result = true ∧
      ownerAt st.result none parent = (prevSmaller acc lev).map nameOffE ∧
      ∀ i q, st.slots i = some q → i < lev.toNat → PathLe q parent := by
  have hLpos : 1 ≤ lev.toNat := by omega
  rcases hps : prevSmaller acc lev with _ | estar
  · have hdead : ∀ i, 1 ≤ i → i < lev.toNat → st.slots i = none := by
      intro i hi1 hiL
      have hlast : lastLE acc i = none :=
        lastLE_none_of_prevSmaller_none hps (by omega)
      by_contra hne
      obtain ⟨e, he, _⟩ := (h.live i hi1).mp (Option.ne_none_iff_isSome.mp hne)
      rw [hlast] at he
      cases he
    have hscan : scanSlots st.slots (lev.toNat - 1) = scanSlots st.slots 0 :=
      scanSlots_eq_low (Nat.zero_le _) (fun i hi1 hi2 => hdead i (by omega) (by omega))
    refine ⟨[], ?_, by simp [isRightmost], by simp [ownerAt], ?_⟩
    · rw [hscan]
      exact h.root
    · intro i q hq hiL
      rcases Nat.eq_zero_or_pos i with rfl | hi1
      · rw [h.root] at hq
        cases hq
        exact PathLe.rfl
      · rw [hdead i hi1 hiL] at hq
        cases hq
  · obtain ⟨u, v, hacc, hpa, hv⟩ := filter_getLast?_decomp hps
    have hlt : estar.level < lev := by simpa using hpa
    have hge1 : 1 ≤ estar.level := by
      have hbd : inRangeG maxL estar = true := h.bounded estar (by rw [hacc]; simp)
      simp only [inRangeG, Bool.and_eq_true, decide_eq_true_eq] at hbd
      exact hbd.1
    have hcast : ((estar.level.toNat : Nat) : Int) = estar.level :=
      Int.toNat_of_nonneg (by omega)
    have hvn : ∀ x ∈ v, ¬(x.level < lev) := by
      intro x hx
      have := hv x hx
      simpa using this
    have hlastl : lastLE acc estar.level.toNat = some estar := by
      rw [hacc]
      exact lastLE_of_decomp hvn (by omega) (by omega)
    have hdead : ∀ i, estar.level.toNat < i → i < lev.toNat → st.slots i = none := by
      intro i hgt hiL
      have hlasti : lastLE acc i = some estar := by
        rw [hacc]
        exact lastLE_of_decomp hvn (by omega) (by omega)
      by_contra hne
      obtain ⟨e, he, hlev⟩ := (h.live i (by omega)).mp (Option.ne_none_iff_isSome.mp hne)
      rw [hlasti] at he
      cases he
      omega
    have hlive : (st.slots estar.level.toNat).isSome :=
      (h.live estar.level.toNat (by omega)).mpr ⟨estar, hlastl, by omega⟩
    obtain ⟨p, hp⟩ := Option.isSome_iff_exists.mp hlive
    obtain ⟨e', hle', hlev', howner⟩ := h.owner estar.level.toNat p (by omega) hp
    rw [hlastl] at hle'
    cases hle'
    have hscan : scanSlots st.slots (lev.toNat - 1) = some p := by
      have hstep : scanSlots st.slots (lev.toNat - 1) = scanSlots st.slots estar.level.toNat :=
        scanSlots_eq_low (by omega) (fun i hi1 hi2 => hdead i hi1 (by omega))
      rw [hstep]
      exact scanSlots_of_some hp
    refine ⟨p, hscan, h.rightmost _ p hp, ?_, ?_⟩
    · rw [Option.map_some']
      exact howner
    · intro i q hq hiL
      rcases Nat.lt_or_ge estar.level.toNat i with hgt | hle
      · rw [hdead i hgt hiL] at hq
        cases hq
      · exact h.chain i estar.level.toNat q p hle hq hp

/-- One builder step preserves the invariant and appends to the
pre-order parent/child pairs exactly the pair the spec demands. -/
theorem genStep_inv {maxL : Nat} {acc : List GEvent} {st : BuildSt} (e : GEvent)
    (h : BInv maxL acc st) :
    BInv maxL (if inRangeG maxL e then acc ++ [e] else acc) (genStep maxL st e) ∧
    pairsList none (genStep maxL st e).result =
      pairsList none st.result ++
        (if inRangeG maxL e then
          [((prevSmaller acc e.level).map nameOffE, nameOffE e)] else []) := by
  by_cases hr : inRangeG maxL e = true
  · simp only [hr, if_true]
    simp only [inRangeG, Bool.and_eq_true, decide_eq_true_eq] at hr
    obtain ⟨hl1, hlm⟩ := hr
    have hcond : ¬(e.level < 1 ∨ (maxL : Int) < e.level) := by omega
    obtain ⟨parent, hscan, hparRM, howner, hops⟩ := scan_parent h hl1
    have hcast : ((e.level.toNat : Nat) : Int) = e.level := Int.toNat_of_nonneg (by omega)
    have hL1 : 1 ≤ e.level.toNat := by omega
    have hstep : genStep maxL st e =
        { result := appendAt st.result parent ⟨e.name, e.ref, e.offset, []⟩
          slots := fun i =>
            if i = e.level.toNat then
              some (parent ++ [lengthAt st.result parent])
            else if e.level.toNat < i then none
            else st.slots i } := by
      rw [genStep, if_neg hcond]
      simp only [hscan, Option.getD_some]
    rw [hstep]
    constructor
    · refine ⟨?_, ?_, ?_, ?_, ?_, ?_⟩
      · show (if 0 = e.level.toNat then _ else if e.level.toNat < 0 then _ else st.slots 0) = some []
        rw [if_neg (by omega), if_neg (by omega)]
        exact h.root
      · intro i p hp
        simp only at hp
        by_cases hiL : i = e.level.toNat
        · rw [if_pos hiL] at hp
          cases hp
          exact isRightmost_appendAt_new parent st.result _ hparRM
        · rw [if_neg hiL] at hp
          by_cases hgt : e.level.toNat < i
          · rw [if_pos hgt] at hp
            cases hp
          · rw [if_neg hgt] at hp
            have hlt : i < e.level.toNat := by omega
            exact isRightmost_appendAt p parent st.result _ (hops i p hp hlt) hparRM
      · intro i j p q hij hp hq
        simp only at hp hq
        by_cases hjL : j = e.level.toNat
        · rw [if_pos hjL] at hq
          cases hq
          by_cases hiL : i = e.level.toNat
          · rw [if_pos hiL] at hp
            cases hp
            exact PathLe.rfl
          · rw [if_neg hiL, if_neg (by omega)] at hp
            have hlt : i < e.level.toNat := by omega
            exact PathLe.trans (hops i p hp hlt) PathLe.concat
        · rw [if_neg hjL] at hq
          by_cases hgt : e.level.toNat < j
          · rw [if_pos hgt] at hq
            cases hq
          · rw [if_neg hgt] at hq
            have hjlt : j < e.level.toNat := by omega
            rw [if_neg (by omega), if_neg (by omega)] at hp
            exact h.chain i j p q hij hp hq
      · intro i hi1
        simp only
        by_cases hiL : i = e.level.toNat
        · rw [if_pos hiL]
          subst hiL
          constructor
          · intro _
            refine ⟨e, ?_, by omega⟩
            rw [lastLE_concat, if_pos (by omega)]
          · intro _
            rfl
        · rw [if_neg hiL]
          by_cases hgt : e.level.toNat < i
          · rw [if_pos hgt]
            constructor
            · intro hfalse
              simp at hfalse
            · rintro ⟨e', he', hlev'⟩
              rw [lastLE_concat, if_pos (by omega)] at he'
              cases he'
              omega
          · rw [if_neg hgt]
            have hlt : i < e.level.toNat := by omega
            rw [lastLE_concat, if_neg (by omega)]
            exact h.live i hi1
      · intro i p hi1 hp
        simp only at hp
        by_cases hiL : i = e.level.toNat
        · rw [if_pos hiL] at hp
          cases hp
          subst hiL
          refine ⟨e, ?_, by omega, ?_⟩
          · rw [lastLE_concat, if_pos (by omega)]
          · exact ownerAt_appendAt_new parent st.result none _ hparRM
        · rw [if_neg hiL] at hp
          by_cases hgt : e.level.toNat < i
          · rw [if_pos hgt] at hp
            cases hp
          · rw [if_neg hgt] at hp
            have hlt : i < e.level.toNat := by omega
            obtain ⟨e', hle', hlev', how'⟩ := h.owner i p hi1 hp
            refine ⟨e', ?_, hlev', ?_⟩
            · rw [lastLE_concat, if_neg (by omega)]
              exact hle'
            · rw [ownerAt_appendAt p parent st.result none _ (hops i p hp hlt) hparRM]
              exact how'
      · intro x hx
        rcases List.mem_append.mp hx with hx' | hx'
        · exact h.bounded x hx'
        · simp at hx'
          subst hx'
          simp only [inRangeG, Bool.and_eq_true, decide_eq_true_eq]
          omega
    · rw [pairsList_appendAt parent st.result none _ hparRM rfl, howner]
      rfl
  · have hrf : inRangeG maxL e = false := Bool.eq_false_iff.mpr hr
    simp only [hrf, Bool.false_eq_true, if_false]
    have hcond : e.level < 1 ∨ (maxL : Int) < e.level := by
      simp only [inRangeG, Bool.and_eq_true, decide_eq_true_eq] at hr
      rcases not_and_or.mp hr with h1 | h1 <;> omega
    have hstep : genStep maxL st e = st := by
      rw [genStep, if_pos hcond]
    rw [hstep]
    exact ⟨h, by simp⟩

/-- Folding the builder step over an event stream preserves the
invariant and extends the pre-order parent/child pairs by exactly the
spec's pairs for that stream. -/
theorem foldl_inv {maxL : Nat} : ∀ (es acc : List GEvent) (st : BuildSt),
    BInv maxL acc st →
    BInv maxL (acc ++ es.filter (inRangeG maxL)) (es.foldl (genStep maxL) st) ∧
    pairsList none ((es.foldl (genStep maxL) st).result) =
      pairsList none st.result ++ specPairsAux maxL acc es
  | [], acc, st, h => by
    refine ⟨by simpa using h, by simp [specPairsAux]⟩
  | e :: rest, acc, st, h => by
    have hstep := genStep_inv e h
    by_cases hre : inRangeG maxL e = true
    · rw [if_pos hre] at hstep
      have hih := foldl_inv rest (acc ++ [e]) (genStep maxL st e) hstep.1
      constructor
      · rw [List.foldl_cons]
        have : acc ++ (e :: rest).filter (inRangeG maxL) =
            (acc ++ [e]) ++ rest.filter (inRangeG maxL) := by
          simp [List.filter, hre]
        rw [this]
        exact hih.1
      · rw [List.foldl_cons, hih.2, hstep.2]
        rw [specPairsAux]
        simp [hre]
    · have hrf : inRangeG maxL e = false := Bool.eq_false_iff.mpr hre
      rw [if_neg hre] at hstep
      have hih := foldl_inv rest acc (genStep maxL st e) hstep.1
      constructor
      · rw [List.foldl_cons]
        have : acc ++ (e :: rest).filter (inRangeG maxL) =
            acc ++ rest.filter (inRangeG maxL) := by
          simp [List.filter, hrf]
        rw [this]
        exact hih.1
      · rw [List.foldl_cons, hih.2, hstep.2]
        rw [specPairsAux]
        simp [hrf]

/-- The generic builder realises exactly the spec's parent/child pairs,
appended after the pairs of whatever forest it starts from. -/
theorem genFold_pairs (maxL : Nat) (es : List GEvent) (r : List TocItem) :
    pairsList none ((es.foldl (genStep maxL) (initSt r)).result) =
      pairsList none r ++ specPairs maxL es := by
  have := (foldl_inv es [] (initSt r) (BInv.init maxL r)).2
  simpa [specPairs, initSt] using this

/-- The pre-order `(name, offset)` view of the spec pairs is the
filtered event stream itself. -/
theorem specPairsAux_map_snd (maxL : Nat) : ∀ (es acc : List GEvent),
    (specPairsAux maxL acc es).map Prod.snd =
      (es.filter (inRangeG maxL)).map nameOffE
  | [], acc => by simp [specPairsAux]
  | e :: rest, acc => by
    by_cases hre : inRangeG maxL e = true
    · rw [specPairsAux, if_pos hre]
      simp only [List.filter, hre, List.map_cons]
      rw [← specPairsAux_map_snd maxL rest (acc ++ [e])]
    · have hrf : inRangeG maxL e = false := Bool.eq_false_iff.mpr hre
      rw [specPairsAux, if_neg hre]
      simp only [List.filter, hrf]
      exact specPairsAux_map_snd maxL rest acc

/-- Pre-order names/offsets are the second components of the
parent/child pairs, whatever the ambient parent identity is. -/
theorem preorderList_eq_pairs : ∀ (l : List TocItem) (par : Option (String × Int)),
    preorderList l = (pairsList par l).map Prod.snd
  | [], _ => by simp [preorderList, pairsList]
  | TocItem.mk nm rf off cs :: rest, par => by
    rw [preorderList, pairsList]
    simp only [List.map_cons, List.map_append]
    rw [preorderList_eq_pairs cs (some (nm, off)), preorderList_eq_pairs rest par]
termination_by l => sizeOf l
decreasing_by
  all_goals (simp <;> omega)

theorem filter_of_map {α β} (f : α → β) (p : β → Bool) (l : List α) :
    (l.map f).filter p = (l.filter (fun a => p (f a))).map f := by
  induction l with
  | nil => simp
  | cons a t ih =>
    by_cases hp : p (f a) = true
    · simp [List.filter, hp, ih]
    · simp [List.filter, Bool.eq_false_iff.mpr hp, ih]

/-- The parent/child pairs of the heading builder are the spec pairs of
the marker stream. -/
theorem build_headings_pairs (ms : List HeadingMarker) :
    pairsList none (build_toc_from_headings ms) =
      specPairs MAX_HEADING_LEVELS (ms.map eventOfMarker) := by
  rcases ms with _ | ⟨m, rest⟩
  · simp [build_toc_from_headings, specPairs, specPairsAux, pairsList]
  · rw [build_toc_from_headings]
    have : ((m :: rest : List HeadingMarker).isEmpty) = false := rfl
    rw [this]
    simp only [Bool.false_eq_true, if_false]
    rw [genFold_pairs]
    simp [pairsList]

/-- Each `populate_toc_items` iteration is the generic step at level
`depth + 1` with `maxL = MAX_DEPTH + 1`. -/
theorem populate_step_eq_gen (st : BuildSt) (t : FfiTocItem) :
    populate_step st t = genStep (MAX_DEPTH + 1) st (eventOfFfi t) := by
  rw [populate_step, genStep]
  by_cases hc : t.depth < 0 ∨ (MAX_DEPTH : Int) < t.depth
  · rw [if_pos hc, if_pos (by simp only [eventOfFfi]; omega)]
  · have hd0 : 0 ≤ t.depth := by omega
    rw [if_neg hc, if_neg (by simp only [eventOfFfi]; omega)]
    have htn : (t.depth + 1).toNat = t.depth.toNat + 1 := by omega
    simp only [eventOfFfi]
    simp only [htn, Nat.add_sub_cancel]

/-- Folding `populate_step` is folding the generic step over the
level-shifted events. -/
theorem populate_foldl_eq_gen : ∀ (ts : List FfiTocItem) (st : BuildSt),
    ts.foldl populate_step st =
      (ts.map eventOfFfi).foldl (genStep (MAX_DEPTH + 1)) st
  | [], st => rfl
  | t :: rest, st => by
    rw [List.map_cons, List.foldl_cons, List.foldl_cons, populate_step_eq_gen]
    exact populate_foldl_eq_gen rest _

/-- The parent/child pairs of the flat-TOC builder are the spec pairs of
the depth-shifted event stream, appended after the pairs of the list it
was given. -/
theorem populate_pairs (r : List TocItem) (ts : List FfiTocItem) :
    pairsList none (populate_toc_items r ts) =
      pairsList none r ++ specPairs (MAX_DEPTH + 1) (ts.map eventOfFfi) := by
  rcases ts with _ | ⟨t, rest⟩
  · simp [populate_toc_items, specPairs, specPairsAux]
  · rw [populate_toc_items]
    have : ((t :: rest : List FfiTocItem).isEmpty) = false := rfl
    rw [this]
    simp only [Bool.false_eq_true, if_false]
    rw [populate_foldl_eq_gen, genFold_pairs]

theorem genStep_skip {maxL : Nat} {st : BuildSt} {e : GEvent}
    (h : inRangeG maxL e = false) : genStep maxL st e = st := by
  rw [genStep, if_pos]
  have h' : ¬(1 ≤ e.level ∧ e.level ≤ (maxL : Int)) := by
    intro hand
    rw [show inRangeG maxL e = true by
      simp [inRangeG, hand.1, hand.2]] at h
    cases h
  rcases not_and_or.mp h' with h1 | h1
  · left; omega
  · right; omega

theorem foldl_filter_inRange (maxL : Nat) : ∀ (es : List GEvent) (st : BuildSt),
    es.foldl (genStep maxL) st = (es.filter (inRangeG maxL)).foldl (genStep maxL) st
  | [], st => rfl
  | e :: rest, st => by
    by_cases hre : inRangeG maxL e = true
    · simp only [List.filter, hre, List.foldl_cons]
      exact foldl_filter_inRange maxL rest _
    · have hrf : inRangeG maxL e = false := Bool.eq_false_iff.mpr hre
      simp only [List.filter, hrf, List.foldl_cons, genStep_skip hrf]
      exact foldl_filter_inRange maxL rest st

theorem build_toc_eq (ms : List HeadingMarker) :
    build_toc_from_headings ms =
      ((ms.map eventOfMarker).foldl (genStep MAX_HEADING_LEVELS) (initSt [])).result := by
  rcases ms with _ | ⟨m, rest⟩
  · rfl
  · rfl

theorem populate_toc_eq (r : List TocItem) (ts : List FfiTocItem) :
    populate_toc_items r ts =
      ((ts.map eventOfFfi).foldl (genStep (MAX_DEPTH + 1)) (initSt r)).result := by
  rcases ts with _ | ⟨t, rest⟩
  · rfl
  · rw [populate_toc_items]
    have : ((t :: rest : List FfiTocItem).isEmpty) = false := rfl
    rw [this]
    simp only [Bool.false_eq_true, if_false]
    rw [populate_foldl_eq_gen]

theorem inRangeG_eventOfMarker (m : HeadingMarker) :
    inRangeG MAX_HEADING_LEVELS (eventOfMarker m) =
      decide (1 ≤ m.level ∧ m.level ≤ (MAX_HEADING_LEVELS : Int)) := by
  rw [inRangeG, Bool.eq_iff_iff]
  simp [eventOfMarker]

theorem inRangeG_eventOfFfi (t : FfiTocItem) :
    inRangeG (MAX_DEPTH + 1) (eventOfFfi t) =
      decide (0 ≤ t.depth ∧ t.depth ≤ (MAX_DEPTH : Int)) := by
  rw [inRangeG, Bool.eq_iff_iff]
  simp only [eventOfFfi, Bool.and_eq_true, decide_eq_true_eq]
  constructor
  · rintro ⟨h1, h2⟩
    constructor <;> [omega; (simp [MAX_DEPTH] at h2 ⊢; omega)]
  · rintro ⟨h1, h2⟩
    constructor <;> [omega; (simp [MAX_DEPTH] at h2 ⊢; omega)]

theorem preorder_headings (ms : List HeadingMarker) :
    preorderList (build_toc_from_headings ms) =
      (ms.filter (fun m => decide (1 ≤ m.level ∧ m.level ≤ (MAX_HEADING_LEVELS : Int)))).map
        (fun m => (m.text, (m.pos : Int))) := by
  rw [preorderList_eq_pairs _ none, build_headings_pairs, specPairs,
    specPairsAux_map_snd, filter_of_map, List.map_map]
  have hfil : ms.filter (fun a => inRangeG MAX_HEADING_LEVELS (eventOfMarker a)) =
      ms.filter (fun m => decide (1 ≤ m.level ∧ m.level ≤ (MAX_HEADING_LEVELS : Int))) :=
    List.filter_congr (fun m _ => inRangeG_eventOfMarker m)
  rw [hfil]
  rfl

theorem preorder_populate (ts : List FfiTocItem) :
    preorderList (populate_toc_items [] ts) =
      (ts.filter (fun t => decide (0 ≤ t.depth ∧ t.depth ≤ (MAX_DEPTH : Int)))).map
        (fun t => (t.name, t.offset)) := by
  rw [preorderList_eq_pairs _ none, populate_pairs]
  have hnil : pairsList none ([] : List TocItem) = [] := by simp [pairsList]
  rw [hnil, List.nil_append, specPairs, specPairsAux_map_snd, filter_of_map, List.map_map]
  have hfil : ts.filter (fun a => inRangeG (MAX_DEPTH + 1) (eventOfFfi a)) =
      ts.filter (fun t => decide (0 ≤ t.depth ∧ t.depth ≤ (MAX_DEPTH : Int))) :=
    List.filter_congr (fun t _ => inRangeG_eventOfFfi t)
  rw [hfil]
  rfl

/-- Claim C2: for every event sequence, the pre-order traversal of the
forest returned by `build_toc_from_headings` (resp. by
`populate_toc_items` on a fresh list) yields exactly the `(name, offset)`
pairs of the events whose level lies in `[1, MAX_HEADING_LEVELS]`
(resp. whose depth lies in `[0, MAX_DEPTH]`), in their original input
order; out-of-range events are absent and no in-range event is
duplicated or lost. -/
theorem toc_preorder_recovers_filtered_input :
    (∀ ms : List HeadingMarker,
      preorderList (build_toc_from_headings ms) =
        (ms.filter (fun m => decide (1 ≤ m.level ∧ m.level ≤ (MAX_HEADING_LEVELS : Int)))).map
          (fun m => (m.text, (m.pos : Int)))) ∧
    (∀ ts : List FfiTocItem,
      preorderList (populate_toc_items [] ts) =
        (ts.filter (fun t => decide (0 ≤ t.depth ∧ t.depth ≤ (MAX_DEPTH : Int)))).map
          (fun t => (t.name, t.offset))) :=
  ⟨preorder_headings, preorder_populate⟩

/-- Claim C1: for every event sequence with strictly increasing position
whose events all lie in the valid level range, the pre-order
parent/child pairs of the forest built by `build_toc_from_headings`
(resp. the depth-based `populate_toc_items`) coincide with the spec's
pairs: every node's parent is the node of the nearest preceding event
with strictly smaller level (resp. depth), or the root forest when no
such event exists (so skipped intermediate levels are tolerated).  In
particular every node is a descendant of that nearest smaller-level
predecessor, and since both pair lists are in arrival order, the
children of any node — the pairs naming it as parent — appear in
arrival order of the corresponding events. -/
theorem toc_attaches_to_nearest_smaller_level :
    (∀ ms : List HeadingMarker,
      (∀ m ∈ ms, 1 ≤ m.level ∧ m.level ≤ (MAX_HEADING_LEVELS : Int)) →
      ms.Pairwise (fun a b => a.pos < b.pos) →
      pairsList none (build_toc_from_headings ms) =
        specPairs MAX_HEADING_LEVELS (ms.map eventOfMarker)) ∧
    (∀ ts : List FfiTocItem,
      (∀ t ∈ ts, 0 ≤ t.depth ∧ t.depth ≤ (MAX_DEPTH : Int)) →
      ts.Pairwise (fun a b => a.offset < b.offset) →
      pairsList none (populate_toc_items [] ts) =
        specPairs (MAX_DEPTH + 1) (ts.map eventOfFfi)) := by
  constructor
  · intro ms _ _
    exact build_headings_pairs ms
  · intro ts _ _
    rw [populate_pairs]
    simp [pairsList]

/-- Witness for C1 at a concrete five-event stream exercising a skipped
level (1, 3, 2, 3, 1). -/
theorem toc_attaches_to_nearest_smaller_level_witness :
    pairsList none (build_toc_from_headings
        [⟨"a", 0, 1⟩, ⟨"b", 1, 3⟩, ⟨"c", 2, 2⟩, ⟨"d", 3, 3⟩, ⟨"e", 4, 1⟩]) =
      specPairs MAX_HEADING_LEVELS
        ((([⟨"a", 0, 1⟩, ⟨"b", 1, 3⟩, ⟨"c", 2, 2⟩, ⟨"d", 3, 3⟩, ⟨"e", 4, 1⟩]) :
          List HeadingMarker).map eventOfMarker) :=
  toc_attaches_to_nearest_smaller_level.1
    [⟨"a", 0, 1⟩, ⟨"b", 1, 3⟩, ⟨"c", 2, 2⟩, ⟨"d", 3, 3⟩, ⟨"e", 4, 1⟩]
    (by decide) (by decide)

/-- Claim C7: an event whose level is outside `[1, MAX_HEADING_LEVELS]`
(or depth outside `[0, MAX_DEPTH]` for the flat-TOC builder) is dropped
without aborting the build (the builders are total functions), and
removing all such events up front produces exactly the same forest: the
placement of the remaining events relative to each other is unchanged. -/
theorem toc_out_of_range_events_dropped :
    (∀ ms : List HeadingMarker,
      build_toc_from_headings ms =
        build_toc_from_headings
          (ms.filter (fun m => decide (1 ≤ m.level ∧ m.level ≤ (MAX_HEADING_LEVELS : Int))))) ∧
    (∀ (r : List TocItem) (ts : List FfiTocItem),
      populate_toc_items r ts =
        populate_toc_items r
          (ts.filter (fun t => decide (0 ≤ t.depth ∧ t.depth ≤ (MAX_DEPTH : Int))))) := by
  constructor
  · intro ms
    rw [build_toc_eq, build_toc_eq, foldl_filter_inRange, filter_of_map]
    have hfil : ms.filter (fun a => inRangeG MAX_HEADING_LEVELS (eventOfMarker a)) =
        ms.filter (fun m => decide (1 ≤ m.level ∧ m.level ≤ (MAX_HEADING_LEVELS : Int))) :=
      List.filter_congr (fun m _ => inRangeG_eventOfMarker m)
    rw [hfil]
  · intro r ts
    rw [populate_toc_eq, populate_toc_eq, foldl_filter_inRange, filter_of_map]
    have hfil : ts.filter (fun a => inRangeG (MAX_DEPTH + 1) (eventOfFfi a)) =
        ts.filter (fun t => decide (0 ≤ t.depth ∧ t.depth ≤ (MAX_DEPTH : Int))) :=
      List.filter_congr (fun t _ => inRangeG_eventOfFfi t)
    rw [hfil]

/-- Claim C10: in both builders, slot `0` of the level/depth slot array
always addresses the root result list and is never cleared; hence for
every accepted event the downward parent scan finds a non-empty slot
(it returns `some`, so the `parent_list == nullptr` fallback branch is
unreachable), and every in-range event is appended to exactly one
children list: the built forest has exactly one node per in-range
event. -/
theorem toc_builder_slot_zero_total :
    (∀ (ms : List HeadingMarker) (m : HeadingMarker),
      1 ≤ m.level → m.level ≤ (MAX_HEADING_LEVELS : Int) →
      (((ms.map eventOfMarker).foldl (genStep MAX_HEADING_LEVELS) (initSt [])).slots 0
          = some [] ∧
        (scanSlots ((ms.map eventOfMarker).foldl (genStep MAX_HEADING_LEVELS)
            (initSt [])).slots (m.level.toNat - 1)).isSome = true)) ∧
    (∀ (ts : List FfiTocItem) (t : FfiTocItem),
      0 ≤ t.depth → t.depth ≤ (MAX_DEPTH : Int) →
      ((ts.foldl populate_step (initSt [])).slots 0 = some [] ∧
        (scanSlots (ts.foldl populate_step (initSt [])).slots t.depth.toNat).isSome = true)) ∧
    (∀ ms : List HeadingMarker,
      (preorderList (build_toc_from_headings ms)).length =
        (ms.filter (fun m => decide (1 ≤ m.level ∧ m.level ≤ (MAX_HEADING_LEVELS : Int)))).length) ∧
    (∀ ts : List FfiTocItem,
      (preorderList (populate_toc_items [] ts)).length =
        (ts.filter (fun t => decide (0 ≤ t.depth ∧ t.depth ≤ (MAX_DEPTH : Int)))).length) := by
  refine ⟨?_, ?_, ?_, ?_⟩
  · intro ms m h1 h2
    have hinv := (foldl_inv (ms.map eventOfMarker) [] (initSt [])
      (BInv.init MAX_HEADING_LEVELS [])).1
    obtain ⟨parent, hscan, -, -, -⟩ := scan_parent hinv h1
    exact ⟨hinv.root, by rw [hscan]; rfl⟩
  · intro ts t h1 h2
    rw [populate_foldl_eq_gen]
    have hinv := (foldl_inv (ts.map eventOfFfi) [] (initSt [])
      (BInv.init (MAX_DEPTH + 1) [])).1
    have h1' : 1 ≤ t.depth + 1 := by omega
    obtain ⟨parent, hscan, -, -, -⟩ := scan_parent hinv h1'
    have htn : (t.depth + 1).toNat - 1 = t.depth.toNat := by omega
    rw [htn] at hscan
    exact ⟨hinv.root, by rw [hscan]; rfl⟩
  · intro ms
    rw [preorder_headings ms, List.length_map]
  · intro ts
    rw [preorder_populate ts, List.length_map]

/-- Witness for C10 at a concrete prefix state and accepted events. -/
theorem toc_builder_slot_zero_total_witness :
    ((([⟨"a", 0, 2⟩] : List HeadingMarker).map eventOfMarker).foldl
        (genStep MAX_HEADING_LEVELS) (initSt [])).slots 0 = some [] ∧
    (scanSlots ((([⟨"a", 0, 2⟩] : List HeadingMarker).map eventOfMarker).foldl
        (genStep MAX_HEADING_LEVELS) (initSt [])).slots ((4 : Int).toNat - 1)).isSome = true :=
  toc_builder_slot_zero_total.1 [⟨"a", 0, 2⟩] ⟨"b", 1, 4⟩ (by decide) (by decide)

theorem collapsePred_cons (nm rf : String) (off : Int) (first : TocItem)
    (rest : List TocItem) :
    collapsePred ⟨nm, rf, off, first :: rest⟩ =
      (nameEqCI nm first.name && (rf == first.ref || rf == "")) := rfl

theorem collapseCheck_of_pred_false {n : TocItem} (h : collapsePred n = false) :
    collapseCheck n = n := by
  rcases n with ⟨nm, rf, off, cs⟩
  rcases cs with _ | ⟨first, rest⟩
  · rfl
  · rw [collapsePred_cons] at h
    rw [collapseCheck]
    simp only [h, Bool.false_eq_true, if_false]

theorem collapseCheck_pos_adopt {nm rf : String} {off : Int} {first : TocItem}
    {rest : List TocItem} (h1 : nameEqCI nm first.name = true)
    (h2 : rf = first.ref ∨ rf = "") (h3 : rf = "" ∧ first.ref ≠ "") :
    collapseCheck ⟨nm, rf, off, first :: rest⟩ =
      ⟨nm, first.ref, first.offset, first.children ++ rest⟩ := by
  have hb1 : (nameEqCI nm first.name && (rf == first.ref || rf == "")) = true := by
    rcases h2 with h2 | h2 <;> simp [h1, h2]
  have hb2 : (rf == "" && first.ref != "") = true := by
    simp [h3.1, h3.2]
  rw [collapseCheck]
  simp only [hb1, hb2, if_true]

theorem collapseCheck_pos_keep {nm rf : String} {off : Int} {first : TocItem}
    {rest : List TocItem} (h1 : nameEqCI nm first.name = true)
    (h2 : rf = first.ref ∨ rf = "") (h3 : ¬(rf = "" ∧ first.ref ≠ "")) :
    collapseCheck ⟨nm, rf, off, first :: rest⟩ =
      ⟨nm, rf, off, first.children ++ rest⟩ := by
  have hb1 : (nameEqCI nm first.name && (rf == first.ref || rf == "")) = true := by
    rcases h2 with h2 | h2 <;> simp [h1, h2]
  have hb2 : (rf == "" && first.ref != "") = false := by
    rcases not_and_or.mp h3 with h | h
    · simp [h]
    · have : first.ref = "" := not_ne_iff.mp h
      simp [this]
  rw [collapseCheck]
  simp only [hb1, hb2, if_true, Bool.false_eq_true, if_false]

/-- Claim C5: `cleanup_toc` at a node with at least one child: when the
node's name equals its first child's name case-insensitively and the
references are equal or the node's is empty, the first child is removed
and its children spliced at the front of the node's children list (the
node additionally adopting the first child's reference and offset when
its own reference is empty and the child's is not), after which cleanup
recurses into the spliced list; a node not satisfying the predicate is
left unchanged by the check, cleanup merely recursing into its
children. -/
theorem cleanup_collapse_characterisation :
    ∀ (nm rf : String) (off : Int) (first : TocItem) (rest : List TocItem),
      (nameEqCI nm first.name = true → (rf = first.ref ∨ rf = "") →
        cleanupItem ⟨nm, rf, off, first :: rest⟩ =
          ⟨nm,
           if rf = "" ∧ first.ref ≠ "" then first.ref else rf,
           if rf = "" ∧ first.ref ≠ "" then first.offset else off,
           cleanupList (first.children ++ rest)⟩) ∧
      (¬(nameEqCI nm first.name = true ∧ (rf = first.ref ∨ rf = "")) →
        cleanupItem ⟨nm, rf, off, first :: rest⟩ =
          ⟨nm, rf, off, cleanupList (first :: rest)⟩) := by
  intro nm rf off first rest
  constructor
  · intro h1 h2
    by_cases h3 : rf = "" ∧ first.ref ≠ ""
    · rw [cleanupItem, collapseCheck_pos_adopt h1 h2 h3, if_pos h3, if_pos h3]
    · rw [cleanupItem, collapseCheck_pos_keep h1 h2 h3, if_neg h3, if_neg h3]
  · intro hnot
    have hpred : collapsePred ⟨nm, rf, off, first :: rest⟩ = false := by
      rw [collapsePred_cons]
      by_cases h1 : nameEqCI nm first.name = true
      · have h2 : ¬(rf = first.ref ∨ rf = "") := fun h2 => hnot ⟨h1, h2⟩
        rcases not_or.mp h2 with ⟨h2a, h2b⟩
        simp [h2a, h2b]
      · simp [Bool.eq_false_iff.mpr h1]
    rw [cleanupItem, collapseCheck_of_pred_false hpred]

/-- Witness for C5: a duplicate-named wrapper with empty reference
adopts its first child's anchor and splices the grandchild to the
front. -/
theorem cleanup_collapse_characterisation_witness :
    cleanupItem ⟨"Ch1", "", 0, [⟨"ch1", "a7", 5, [⟨"g", "", 7, []⟩]⟩, ⟨"s", "", 9, []⟩]⟩ =
      ⟨"Ch1", "a7", 5, cleanupList ([⟨"g", "", 7, []⟩] ++ [⟨"s", "", 9, []⟩])⟩ :=
  (cleanup_collapse_characterisation "Ch1" "" 0 ⟨"ch1", "a7", 5, [⟨"g", "", 7, []⟩]⟩
    [⟨"s", "", 9, []⟩]).1 (by decide) (by decide)

mutual

/-- No node of this subtree satisfies the collapse predicate. -/
def noCollapsibleItem (n : TocItem) : Bool :=
  !collapsePred n && noCollapsibleList n.children
termination_by sizeOf n
decreasing_by
  all_goals (rcases n with ⟨nm, rf, off, cs⟩; simp <;> omega)

/-- No node of this forest satisfies the collapse predicate. -/
def noCollapsibleList (l : List TocItem) : Bool :=
  match l with
  | [] => true
  | n :: rest => noCollapsibleItem n && noCollapsibleList rest
termination_by sizeOf l
decreasing_by
  all_goals (simp <;> omega)

end

mutual

/-- The claim's notion of a multi-level duplication chain, at a node: no
node of the subtree both satisfies the collapse predicate and, after
its one collapse, again satisfies it against its new first child. -/
def chainFreeItem (n : TocItem) : Bool :=
  !(collapsePred n && collapsePred (collapseCheck n)) && chainFreeList n.children
termination_by sizeOf n
decreasing_by
  all_goals (rcases n with ⟨nm, rf, off, cs⟩; simp <;> omega)

/-- `chainFreeItem` over every node of a forest. -/
def chainFreeList (l : List TocItem) : Bool :=
  match l with
  | [] => true
  | n :: rest => chainFreeItem n && chainFreeList rest
termination_by sizeOf l
decreasing_by
  all_goals (simp <;> omega)

end

theorem cleanupList_of_noCollapsible :
    ∀ (k : Nat) (l : List TocItem), sizeOf l ≤ k →
      noCollapsibleList l = true → cleanupList l = l := by
  intro k
  induction k with
  | zero =>
    intro l hsize
    have : 1 ≤ sizeOf l := by
      rcases l with _ | ⟨n, rest⟩ <;> simp <;> omega
    omega
  | succ k ih =>
    intro l hsize hnc
    rcases l with _ | ⟨n, rest⟩
    · rw [cleanupList]
    · rw [noCollapsibleList] at hnc
      simp only [Bool.and_eq_true] at hnc
      obtain ⟨hn, hrest⟩ := hnc
      rw [noCollapsibleItem] at hn
      simp only [Bool.and_eq_true, Bool.not_eq_true'] at hn
      obtain ⟨hpred, hchildren⟩ := hn
      rcases n with ⟨nm, rf, off, cs⟩
      have hsz : sizeOf cs ≤ k ∧ sizeOf rest ≤ k := by
        simp at hsize
        constructor <;> omega
      rw [cleanupList, cleanupItem, collapseCheck_of_pred_false hpred]
      rw [ih cs hsz.1 hchildren, ih rest hsz.2 hrest]

/-- Claim C6 (amended): for every forest such that after one cleanup
pass no node satisfies the collapse predicate against its first child,
running `cleanup_toc` twice yields the same forest as running it
once. -/
theorem cleanup_idempotent_on_collapse_free_result :
    ∀ l : List TocItem, noCollapsibleList (cleanupList l) = true →
      cleanupList (cleanupList l) = cleanupList l := fun l h =>
  cleanupList_of_noCollapsible (sizeOf (cleanupList l)) (cleanupList l)
    (Nat.le_refl _) h

/-- Counterexample to claim C6 as stated: this forest contains no
multi-level duplication chain (no node that, after one collapse, again
satisfies the collapse predicate against its new first child), yet
cleanup is not idempotent on it: during the first pass the middle node
adopts its child's reference, which creates a fresh parent/first-child
duplicate that only the second pass collapses. -/
theorem cleanup_not_idempotent_counterexample :
    chainFreeList [⟨"x", "r", 0, [⟨"x", "", 1, [⟨"x", "r", 2, []⟩]⟩]⟩] = true ∧
    cleanupList (cleanupList [⟨"x", "r", 0, [⟨"x", "", 1, [⟨"x", "r", 2, []⟩]⟩]⟩]) ≠
      cleanupList [⟨"x", "r", 0, [⟨"x", "", 1, [⟨"x", "r", 2, []⟩]⟩]⟩] := by
  have hpredA : collapsePred ⟨"x", "r", 0, [⟨"x", "", 1, [⟨"x", "r", 2, []⟩]⟩]⟩ = false := by
    rw [collapsePred_cons]
    decide
  have hpredB : collapsePred ⟨"x", "", 1, [⟨"x", "r", 2, []⟩]⟩ = true := by
    rw [collapsePred_cons]
    decide
  have hccB : collapseCheck ⟨"x", "", 1, [⟨"x", "r", 2, []⟩]⟩ = ⟨"x", "r", 2, []⟩ :=
    collapseCheck_pos_adopt (by decide) (by decide) (by decide)
  have hclean1 : cleanupList [(⟨"x", "r", 0, [⟨"x", "", 1, [⟨"x", "r", 2, []⟩]⟩]⟩ : TocItem)] =
      [⟨"x", "r", 0, [⟨"x", "r", 2, []⟩]⟩] := by
    rw [cleanupList, cleanupList, cleanupItem, collapseCheck_of_pred_false hpredA]
    simp only
    rw [cleanupList, cleanupList, cleanupItem, hccB]
    simp only
    rw [cleanupList]
  have hpredA2 : collapsePred ⟨"x", "r", 0, [⟨"x", "r", 2, []⟩]⟩ = true := by
    rw [collapsePred_cons]
    decide
  have hccA2 : collapseCheck ⟨"x", "r", 0, [⟨"x", "r", 2, []⟩]⟩ = ⟨"x", "r", 0, []⟩ :=
    collapseCheck_pos_keep (by decide) (by decide) (by decide)
  have hclean2 : cleanupList [(⟨"x", "r", 0, [⟨"x", "r", 2, []⟩]⟩ : TocItem)] =
      [⟨"x", "r", 0, []⟩] := by
    rw [cleanupList, cleanupList, cleanupItem, hccA2]
    simp only
    rw [cleanupList]
  constructor
  · have hleaf : collapsePred (⟨"x", "r", 2, []⟩ : TocItem) = false := rfl
    simp only [chainFreeList, chainFreeItem, hpredA, hpredB, hccB, hleaf]
    simp
  · rw [hclean1, hclean2]
    simp

/-- Witness for the amended C6 at a concrete collapse-free forest. -/
theorem cleanup_idempotent_on_collapse_free_result_witness :
    cleanupList (cleanupList [⟨"a", "", 0, []⟩]) = cleanupList [⟨"a", "", 0, []⟩] :=
  cleanup_idempotent_on_collapse_free_result [⟨"a", "", 0, []⟩] (by
    have hcc : collapseCheck ⟨"a", "", 0, []⟩ = ⟨"a", "", 0, []⟩ := rfl
    have h1 : cleanupList [(⟨"a", "", 0, []⟩ : TocItem)] = [⟨"a", "", 0, []⟩] := by
      rw [cleanupList, cleanupItem, hcc]
      simp only
      rw [cleanupList]
    rw [h1, noCollapsibleList, noCollapsibleItem, noCollapsibleList]
    have hpred : collapsePred (⟨"a", "", 0, []⟩ : TocItem) = false := rfl
    simp [hpred])

theorem minSat_spec {n : Nat} {P : Nat → Bool} {c : Nat} (h : minSat P n = some c) :
    P c = true ∧ c < n ∧ ∀ j < c, P j = false := by
  induction n with
  | zero => simp [minSat] at h
  | succ n ih =>
    rw [minSat, List.range_succ, List.find?_append] at h
    rcases hfind : (List.range n).find? P with _ | d
    · rw [hfind] at h
      by_cases hPn : P n = true
      · simp [List.find?, hPn] at h
        subst h
        refine ⟨hPn, Nat.lt_succ_self n, ?_⟩
        intro j hj
        by_contra hne
        simp only [Bool.not_eq_false] at hne
        have : (List.range n).find? P ≠ none := by
          intro hnone
          have := List.find?_eq_none.mp hnone j (by simpa using hj)
          simp [hne] at this
        exact this hfind
      · simp [List.find?, Bool.eq_false_iff.mpr hPn] at h
    · rw [hfind] at h
      simp at h
      subst h
      have := ih hfind
      exact ⟨this.1, Nat.lt_succ_of_lt this.2.1, this.2.2⟩

theorem minSat_none {n : Nat} {P : Nat → Bool} (h : minSat P n = none) :
    ∀ j < n, P j = false := by
  intro j hj
  have := List.find?_eq_none.mp h j (by simpa using hj)
  simpa using this

theorem minSat_none_of {n : Nat} {P : Nat → Bool} (h : ∀ j < n, P j = false) :
    minSat P n = none := by
  rw [minSat, List.find?_eq_none]
  intro j hj
  simp only [List.mem_range] at hj
  simp [h j hj]

theorem minSat_eq_some {n : Nat} {P : Nat → Bool} {c : Nat}
    (h1 : P c = true) (h2 : c < n) (h3 : ∀ j < c, P j = false) :
    minSat P n = some c := by
  rcases hm : minSat P n with _ | d
  · have := minSat_none hm c h2
    rw [h1] at this
    cases this
  · obtain ⟨hPd, hdn, hmin⟩ := minSat_spec hm
    rcases Nat.lt_trichotomy d c with hdc | hdc | hdc
    · have := h3 d hdc
      rw [hPd] at this
      cases this
    · rw [hdc]
    · have := hmin c hdc
      rw [h1] at this
      cases this

theorem maxSat_none_of {n : Nat} {P : Nat → Bool} (h : ∀ j < n, P j = false) :
    maxSat P n = none := by
  rw [maxSat, List.getLast?_eq_none_iff, List.filter_eq_nil_iff]
  intro j hj
  simp only [List.mem_range] at hj
  simp [h j hj]

theorem maxSat_eq_some {n : Nat} {P : Nat → Bool} {c : Nat}
    (h1 : P c = true) (h2 : c < n) (h3 : ∀ j < n, P j = true → j ≤ c) :
    maxSat P n = some c := by
  rcases hm : maxSat P n with _ | d
  · have := maxSat_eq_none hm c h2
    rw [h1] at this
    cases this
  · obtain ⟨hPd, hdn, hmax⟩ := maxSat_spec hm
    have h4 := h3 d hdn hPd
    have h5 := hmax c h2 h1
    have : d = c := by omega
    rw [this]

theorem maxSat_congr {n : Nat} {P Q : Nat → Bool} (h : ∀ i, P i = Q i) :
    maxSat P n = maxSat Q n := by
  rw [maxSat, maxSat]
  congr 1
  apply List.filter_congr
  intro i _
  exact h i

theorem minSat_congr {n : Nat} {P Q : Nat → Bool} (h : ∀ i, P i = Q i) :
    minSat P n = minSat Q n := by
  rw [minSat, minSat]
  congr 1
  funext i
  exact h i

theorem occursAt_take_iff {l ned : List Char} {k i : Nat} :
    occursAt (l.take k) ned i = true ↔
      (occursAt l ned i = true ∧ i + ned.length ≤ k) := by
  simp only [occursAt, Bool.and_eq_true, decide_eq_true_eq, List.length_take]
  constructor
  · rintro ⟨hb, he⟩
    have hik : i + ned.length ≤ k := by omega
    have hil : i + ned.length ≤ l.length := by omega
    refine ⟨⟨hil, ?_⟩, hik⟩
    rw [List.drop_take, List.take_take] at he
    rw [show min ned.length (k - i) = ned.length by omega] at he
    exact he
  · rintro ⟨⟨hil, he⟩, hik⟩
    refine ⟨by omega, ?_⟩
    rw [List.drop_take, List.take_take]
    rw [show min ned.length (k - i) = ned.length by omega]
    exact he

theorem findFrom_none {hay ned : List Char} {start : Nat}
    (h : findFrom hay ned start = none) :
    ∀ j, start ≤ j → occursAt hay ned j = false := by
  intro j hj
  by_cases hjl : j < hay.length + 1
  · have := minSat_none h j hjl
    simpa [hj] using this
  · simp only [occursAt]
    have : ¬(j + ned.length ≤ hay.length) := by omega
    simp [this]

theorem rfindIn_spec {hay ned : List Char} {c : Nat} (h : rfindIn hay ned = some c) :
    occursAt hay ned c = true ∧ ∀ j, occursAt hay ned j = true → j ≤ c := by
  obtain ⟨h1, h2, h3⟩ := maxSat_spec h
  refine ⟨h1, ?_⟩
  intro j hj
  have hjl : j < hay.length + 1 := by
    simp only [occursAt, Bool.and_eq_true, decide_eq_true_eq] at hj
    omega
  exact h3 j hjl hj

theorem rfindIn_none {hay ned : List Char} (h : rfindIn hay ned = none) :
    ∀ j, occursAt hay ned j = false := by
  intro j
  by_cases hjl : j < hay.length + 1
  · exact maxSat_eq_none h j hjl
  · simp only [occursAt]
    have : ¬(j + ned.length ≤ hay.length) := by omega
    simp [this]

/-- The claim's acceptance condition for a whole-word candidate: an
occurrence (in the searched, possibly case-folded strings) whose
neighbouring characters in the original haystack pass both boundary
tests. -/
def validWordOcc (hay shay sned : List Char) (i : Nat) : Bool :=
  occursAt shay sned i && (wordStartOk hay i && wordEndOk hay (i + sned.length))

/-- The first boundary-valid occurrence at or after `start`. -/
def leastValidFrom (hay shay sned : List Char) (start : Nat) : Option Nat :=
  minSat (fun i => decide (start ≤ i) && validWordOcc hay shay sned i)
    (shay.length + 1)

/-- The last boundary-valid occurrence ending at or before `start`. -/
def maxValidEnding (hay shay sned : List Char) (start : Nat) : Option Nat :=
  maxSat (fun i => decide (i + sned.length ≤ start) && validWordOcc hay shay sned i)
    (shay.length + 1)

/-- Distinct occurrences of the needle are separated by more than its
length (no overlapping or touching occurrences). -/
def gapFree (shay sned : List Char) : Bool :=
  (List.range (shay.length + 1)).all fun j =>
    (List.range j).all fun i =>
      !occursAt shay sned i || !occursAt shay sned j || decide (i + sned.length < j)

theorem gapFree_spec {shay sned : List Char} (h : gapFree shay sned = true) :
    ∀ i j, occursAt shay sned i = true → occursAt shay sned j = true →
      i < j → i + sned.length < j := by
  intro i j hi hj hij
  have hjl : j < shay.length + 1 := by
    simp only [occursAt, Bool.and_eq_true, decide_eq_true_eq] at hj
    omega
  rw [gapFree, List.all_eq_true] at h
  have h1 := h j (by simpa using hjl)
  rw [List.all_eq_true] at h1
  have h2 := h1 i (by simpa using hij)
  simp only [hi, hj, Bool.not_true, Bool.false_or, decide_eq_true_eq] at h2
  exact h2

/-- The forward whole-word loop returns exactly the first boundary-valid
occurrence at or after its position (`wxNOT_FOUND` when none exists). -/
theorem wwLoopF_correct (hay shay sned : List Char)
    (hlen : shay.length = hay.length) (hne : sned ≠ []) :
    ∀ pos, wwLoopF hay shay sned pos = optToLong (leastValidFrom hay shay sned pos) := by
  have hned1 : 1 ≤ sned.length := List.length_pos.mpr hne
  intro pos
  induction pos using wwLoopF.induct hay shay sned with
  | case1 x hnone =>
    rw [wwLoopF]
    rw [hnone]
    have : leastValidFrom hay shay sned x = none := by
      apply minSat_none_of
      intro j hj
      by_cases hxj : x ≤ j
      · have := findFrom_none hnone j hxj
        simp [validWordOcc, this]
      · simp [hxj]
    rw [this]
    rfl
  | case2 x c hsome hacc =>
    rw [wwLoopF]
    rw [hsome]
    simp only [hacc, if_true]
    obtain ⟨hxc, hocc, hmin⟩ := findFrom_isSome_spec hsome
    have : leastValidFrom hay shay sned x = some c := by
      apply minSat_eq_some
      · simp [hxc, validWordOcc, hocc, hacc]
      · have := occursAt_lt_length hne hocc
        omega
      · intro j hj
        by_cases hxj : x ≤ j
        · by_cases hoj : occursAt shay sned j = true
          · have := hmin j hxj hoj
            omega
          · simp [validWordOcc, Bool.eq_false_iff.mpr hoj]
        · simp [hxj]
    rw [this]
    rfl
  | case3 x c hsome hrej hbreak =>
    rw [wwLoopF]
    rw [hsome]
    simp only [Bool.not_eq_true] at hrej
    simp only [hrej, Bool.false_eq_true, if_false, if_pos hbreak]
    obtain ⟨hxc, hocc, hmin⟩ := findFrom_isSome_spec hsome
    have : leastValidFrom hay shay sned x = none := by
      apply minSat_none_of
      intro j hj
      by_cases hxj : x ≤ j
      · by_cases hoj : occursAt shay sned j = true
        · have hcj := hmin j hxj hoj
          rcases Nat.eq_or_lt_of_le hcj with hcj' | hcj'
          · subst hcj'
            simp [validWordOcc, hrej]
          · exfalso
            have hjb : j + sned.length ≤ shay.length := by
              simp only [occursAt, Bool.and_eq_true, decide_eq_true_eq] at hoj
              omega
            omega
        · simp [validWordOcc, Bool.eq_false_iff.mpr hoj]
      · simp [hxj]
    rw [this]
    rfl
  | case4 x c hsome hrej hbreak ih =>
    rw [wwLoopF]
    rw [hsome]
    simp only [Bool.not_eq_true] at hrej
    simp only [hrej, Bool.false_eq_true, if_false, if_neg hbreak]
    rw [ih]
    have : leastValidFrom hay shay sned x = leastValidFrom hay shay sned (c + 1) := by
      apply minSat_congr
      intro i
      obtain ⟨hxc, hocc, hmin⟩ := findFrom_isSome_spec hsome
      by_cases hv : validWordOcc hay shay sned i = true
      · by_cases hxi : x ≤ i
        · have hoi : occursAt shay sned i = true := by
            simp only [validWordOcc, Bool.and_eq_true] at hv
            exact hv.1
          have hci := hmin i hxi hoi
          have hic : i ≠ c := by
            intro he
            subst he
            simp only [validWordOcc, Bool.and_eq_true] at hv
            simp [hv.2.1, hv.2.2] at hrej
          have h2 : c + 1 ≤ i := by omega
          simp [hxi, h2]
        · have h2 : ¬(c + 1 ≤ i) := by omega
          simp [hxi, h2]
      · simp [Bool.eq_false_iff.mpr hv]
    rw [this]

/-- Under the separation hypothesis (distinct occurrences of the needle
are more than a needle-length apart), the backward whole-word loop
returns exactly the last boundary-valid occurrence ending at or before
its window position (`wxNOT_FOUND` when none exists). -/
theorem wwLoopB_correct (hay shay sned : List Char) (hne : sned ≠ [])
    (hgap : gapFree shay sned = true) :
    ∀ pos, wwLoopB hay shay sned pos = optToLong (maxValidEnding hay shay sned pos) := by
  have hned1 : 1 ≤ sned.length := List.length_pos.mpr hne
  have hgap' := gapFree_spec hgap
  intro pos
  induction pos using wwLoopB.induct hay shay sned with
  | case1 x hnone =>
    rw [wwLoopB]
    rw [hnone]
    have hall := rfindIn_none hnone
    have : maxValidEnding hay shay sned x = none := by
      apply maxSat_none_of
      intro j hj
      by_cases hend : j + sned.length ≤ x
      · by_cases hoj : occursAt shay sned j = true
        · exfalso
          have : occursAt (shay.take x) sned j = true := occursAt_take_iff.mpr ⟨hoj, hend⟩
          rw [hall j] at this
          cases this
        · simp [validWordOcc, Bool.eq_false_iff.mpr hoj]
      · simp [hend]
    rw [this]
    rfl
  | case2 x c hsome hacc =>
    rw [wwLoopB]
    rw [hsome]
    simp only [hacc, if_true]
    obtain ⟨htocc, hmax⟩ := rfindIn_spec hsome
    obtain ⟨hocc, hend⟩ := occursAt_take_iff.mp htocc
    have : maxValidEnding hay shay sned x = some c := by
      apply maxSat_eq_some
      · simp [hend, validWordOcc, hocc, hacc]
      · have := occursAt_lt_length hne hocc
        omega
      · intro j hj hPj
        simp only [Bool.and_eq_true, decide_eq_true_eq, validWordOcc] at hPj
        exact hmax j (occursAt_take_iff.mpr ⟨hPj.2.1, hPj.1⟩)
    rw [this]
    rfl
  | case3 x hsome hrej =>
    rw [wwLoopB]
    rw [hsome]
    simp only [Bool.not_eq_true] at hrej
    simp only [hrej, Bool.false_eq_true, if_false, if_pos rfl]
    obtain ⟨htocc, hmax⟩ := rfindIn_spec hsome
    have : maxValidEnding hay shay sned x = none := by
      apply maxSat_none_of
      intro j hj
      by_cases hend : j + sned.length ≤ x
      · by_cases hoj : occursAt shay sned j = true
        · have hj0 : j ≤ 0 := hmax j (occursAt_take_iff.mpr ⟨hoj, hend⟩)
          have : j = 0 := by omega
          subst this
          have hv0 : validWordOcc hay shay sned 0 = false := by
            simp only [Nat.zero_add] at hrej
            simp only [validWordOcc, Nat.zero_add, hrej]
            simp
          simp [hv0]
        · simp [validWordOcc, Bool.eq_false_iff.mpr hoj]
      · simp [hend]
    rw [this]
    rfl
  | case4 x c hsome hrej hc0 ih =>
    rw [wwLoopB]
    rw [hsome]
    simp only [Bool.not_eq_true] at hrej
    simp only [hrej, Bool.false_eq_true, if_false, if_neg hc0]
    rw [ih]
    obtain ⟨htocc, hmax⟩ := rfindIn_spec hsome
    obtain ⟨hocc, hend⟩ := occursAt_take_iff.mp htocc
    have : maxValidEnding hay shay sned x = maxValidEnding hay shay sned (c - 1) := by
      apply maxSat_congr
      intro i
      by_cases hv : validWordOcc hay shay sned i = true
      · have hoi : occursAt shay sned i = true := by
          simp only [validWordOcc, Bool.and_eq_true] at hv
          exact hv.1
        have hic : i ≠ c := by
          intro he
          subst he
          simp only [validWordOcc, Bool.and_eq_true] at hv
          simp [hv.2.1, hv.2.2] at hrej
        rcases Nat.lt_or_ge i c with hlt | hge
        · have hgapi := hgap' i c hoi hocc hlt
          have h1 : i + sned.length ≤ x := by omega
          have h2 : i + sned.length ≤ c - 1 := by omega
          simp [h1, h2]
        · have hgtc : c < i := by omega
          have h2 : ¬(i + sned.length ≤ c - 1) := by omega
          have h1 : ¬(i + sned.length ≤ x) := by
            intro h1
            have := hmax i (occursAt_take_iff.mpr ⟨hoi, h1⟩)
            omega
          simp [h1, h2]
      · simp [Bool.eq_false_iff.mpr hv]
    rw [this]

theorem wwLoopF_cases (hay shay sned : List Char) : ∀ pos,
    wwLoopF hay shay sned pos = wxNOT_FOUND ∨
      ∃ c : Nat, wwLoopF hay shay sned pos = (c : Int) ∧
        validWordOcc hay shay sned c = true := by
  intro pos
  induction pos using wwLoopF.induct hay shay sned with
  | case1 x hnone =>
    rw [wwLoopF]
    rw [hnone]
    left
    rfl
  | case2 x c hsome hacc =>
    rw [wwLoopF]
    rw [hsome]
    simp only [hacc, if_true]
    right
    refine ⟨c, rfl, ?_⟩
    have hocc := (findFrom_isSome_spec hsome).2.1
    simp [validWordOcc, hocc, hacc]
  | case3 x c hsome hrej hbreak =>
    rw [wwLoopF]
    rw [hsome]
    simp only [Bool.not_eq_true] at hrej
    simp only [hrej, Bool.false_eq_true, if_false, if_pos hbreak]
    left
    trivial
  | case4 x c hsome hrej hbreak ih =>
    rw [wwLoopF]
    rw [hsome]
    simp only [Bool.not_eq_true] at hrej
    simp only [hrej, Bool.false_eq_true, if_false, if_neg hbreak]
    exact ih

theorem wwLoopB_cases (hay shay sned : List Char) : ∀ pos,
    wwLoopB hay shay sned pos = wxNOT_FOUND ∨
      ∃ c : Nat, wwLoopB hay shay sned pos = (c : Int) ∧
        validWordOcc hay shay sned c = true := by
  intro pos
  induction pos using wwLoopB.induct hay shay sned with
  | case1 x hnone =>
    rw [wwLoopB]
    rw [hnone]
    left
    rfl
  | case2 x c hsome hacc =>
    rw [wwLoopB]
    rw [hsome]
    simp only [hacc, if_true]
    right
    refine ⟨c, rfl, ?_⟩
    have hocc := (occursAt_take_iff.mp (rfindIn_spec hsome).1).1
    simp [validWordOcc, hocc, hacc]
  | case3 x hsome hrej =>
    rw [wwLoopB]
    rw [hsome]
    simp only [Bool.not_eq_true] at hrej
    simp only [hrej, Bool.false_eq_true, if_false, if_pos rfl]
    left
    trivial
  | case4 x c hsome hrej hc0 ih =>
    rw [wwLoopB]
    rw [hsome]
    simp only [Bool.not_eq_true] at hrej
    simp only [hrej, Bool.false_eq_true, if_false, if_neg hc0]
    exact ih

theorem regexSearch_none {occ : Nat → Nat → Nat → Bool} {cur e : Nat}
    (h : regexSearch occ cur e = none) :
    ∀ j, cur ≤ j → j ≤ e → occ cur j e = false := by
  intro j h1 h2
  have := minSat_none h j (by omega)
  simpa [h1] using this

theorem regexBackLoop_sign (occ : Nat → Nat → Nat → Bool) (e : Nat) : ∀ (cur : Nat) (last : Int),
    (last = wxNOT_FOUND ∨ 0 ≤ last) →
    (regexBackLoop occ e cur last = wxNOT_FOUND ∨ 0 ≤ regexBackLoop occ e cur last) := by
  intro cur last
  induction cur, last using regexBackLoop.induct occ e with
  | case1 cur last hlt =>
    intro h
    rw [regexBackLoop, if_pos hlt]
    exact h
  | case2 cur last hlt hnone =>
    intro h
    rw [regexBackLoop, if_neg hlt]
    rw [hnone]
    exact h
  | case3 cur last hlt c hsome ih =>
    intro _
    rw [regexBackLoop, if_neg hlt]
    rw [hsome]
    exact ih (Or.inr (by omega))

/-- The backward regex loop computes the greatest match start in the
window, provided matching is independent of where the search starts
(no `^`/`\b` anchoring at the cursor) and every match of the pattern
occupies at least one character. -/
theorem regexBackLoop_max (occ : Nat → Nat → Nat → Bool) (e : Nat)
    (hind : ∀ (cur i e' : Nat), occ cur i e' = occ 0 i e')
    (hne : ∀ (cur i e' : Nat), occ cur i e' = true → i < e') : ∀ (cur : Nat) (last : Int),
    last = optToLong (maxSat (fun i => occ 0 i e) (min cur (e + 1))) →
    regexBackLoop occ e cur last = optToLong (maxSat (fun i => occ 0 i e) e) := by
  intro cur last
  induction cur, last using regexBackLoop.induct occ e with
  | case1 cur last hlt =>
    intro h
    rw [regexBackLoop, if_pos hlt]
    rw [h]
    congr 1
    have h1 : min cur (e + 1) = e + 1 := by omega
    rw [h1]
    apply maxSat_ext (by omega)
    intro i h2 h3
    by_cases hocc : occ 0 i e = true
    · have := hne 0 i e hocc
      omega
    · exact Bool.eq_false_iff.mpr hocc
  | case2 cur last hlt hnone =>
    intro h
    rw [regexBackLoop, if_neg hlt]
    rw [hnone]
    have hgoal : last = optToLong (maxSat (fun i => occ 0 i e) e) := by
      rw [h]
      congr 1
      have h1 : min cur (e + 1) = cur := by omega
      rw [h1]
      symm
      apply maxSat_ext (by omega)
      intro i h2 h3
      rw [← hind cur i e]
      exact regexSearch_none hnone i h2 (by omega)
    exact hgoal
  | case3 cur last hlt c hsome ih =>
    intro _
    rw [regexBackLoop, if_neg hlt]
    rw [hsome]
    have hpre : (c : Int) = optToLong (maxSat (fun i => occ 0 i e) (min (c + 1) (e + 1))) := by
      obtain ⟨h1, h2, h3, h4⟩ := regexSearch_isSome_spec hsome
      have h3' : occ 0 c e = true := by
        rw [← hind cur c e]
        exact h3
      have hmin : min (c + 1) (e + 1) = c + 1 := by omega
      rw [hmin, @maxSat_last_self (fun i => occ 0 i e) c h3']
      rfl
    exact ih hpre

theorem find_text_ww_forward (rx : Option (Nat → Nat → Nat → Bool)) (hay ned : List Char)
    (start : Nat) (mc : Bool) (hne : ned ≠ []) :
    find_text rx hay ned start ⟨true, mc, true, false⟩ =
      optToLong (leastValidFrom hay (if mc then hay else hay.map Char.toLower)
        (if mc then ned else ned.map Char.toLower) start) := by
  have hu : find_text rx hay ned start ⟨true, mc, true, false⟩ =
      wwLoopF hay (if mc then hay else hay.map Char.toLower)
        (if mc then ned else ned.map Char.toLower) start := by
    rw [find_text, if_neg hne]
    rfl
  rw [hu]
  apply wwLoopF_correct
  · cases mc <;> simp
  · cases mc <;> simp [hne]

theorem find_text_ww_backward (rx : Option (Nat → Nat → Nat → Bool)) (hay ned : List Char)
    (start : Nat) (mc : Bool) (hne : ned ≠ [])
    (hgap : gapFree (if mc then hay else hay.map Char.toLower)
      (if mc then ned else ned.map Char.toLower) = true) :
    find_text rx hay ned start ⟨false, mc, true, false⟩ =
      optToLong (maxValidEnding hay (if mc then hay else hay.map Char.toLower)
        (if mc then ned else ned.map Char.toLower) start) := by
  have hu : find_text rx hay ned start ⟨false, mc, true, false⟩ =
      wwLoopB hay (if mc then hay else hay.map Char.toLower)
        (if mc then ned else ned.map Char.toLower) start := by
    rw [find_text, if_neg hne]
    rfl
  rw [hu]
  apply wwLoopB_correct
  · cases mc <;> simp [hne]
  · exact hgap

/-- Claim C4 (amended): whole-word literal search.  Forward, the result
is always the first occurrence at or after `start` whose boundary
characters pass both checks (the character before the match, if any, and
the character after it, if any, must not be alphanumeric).  Backward,
the same holds — the last boundary-valid occurrence ending at or before
`start` — provided distinct occurrences of the needle are separated by
more than the needle's length; without that proviso the backward loop,
which shrinks the window to end one before each rejected candidate's
start, can skip a valid occurrence that overlaps a rejected one (see the
counterexample).  The claim's concrete example holds:
`findText("cat catalog cat", "cat", 15, backward+wholeWord+caseSensitive)`
returns `12`. -/
theorem find_text_whole_word_boundary_characterised :
    (∀ (rx : Option (Nat → Nat → Nat → Bool)) (hay ned : List Char) (start : Nat) (mc : Bool),
      ned ≠ [] →
      find_text rx hay ned start ⟨true, mc, true, false⟩ =
        optToLong (leastValidFrom hay (if mc then hay else hay.map Char.toLower)
          (if mc then ned else ned.map Char.toLower) start)) ∧
    (∀ (rx : Option (Nat → Nat → Nat → Bool)) (hay ned : List Char) (start : Nat) (mc : Bool),
      ned ≠ [] →
      gapFree (if mc then hay else hay.map Char.toLower)
        (if mc then ned else ned.map Char.toLower) = true →
      find_text rx hay ned start ⟨false, mc, true, false⟩ =
        optToLong (maxValidEnding hay (if mc then hay else hay.map Char.toLower)
          (if mc then ned else ned.map Char.toLower) start)) ∧
    find_text none ("cat catalog cat".toList) ("cat".toList) 15 ⟨false, true, true, false⟩ = 12 := by
  refine ⟨?_, ?_, ?_⟩
  · intro rx hay ned start mc hne
    exact find_text_ww_forward rx hay ned start mc hne
  · intro rx hay ned start mc hne hgap
    exact find_text_ww_backward rx hay ned start mc hne hgap
  · have h := find_text_ww_backward none ("cat catalog cat".toList) ("cat".toList) 15 true
      (by decide) (by decide)
    rw [h]
    decide

/-- Witness for the amended C4: the claim's own concrete search, derived
from the general backward characterisation. -/
theorem find_text_whole_word_boundary_witness :
    find_text none ("cat catalog cat".toList) ("cat".toList) 15 ⟨false, true, true, false⟩ =
      optToLong (maxValidEnding ("cat catalog cat".toList) ("cat catalog cat".toList)
        ("cat".toList) 15) :=
  find_text_whole_word_boundary_characterised.2.1 none ("cat catalog cat".toList)
    ("cat".toList) 15 true (by decide) (by decide)

/-- Counterexample to claim C4 as stated: in `"a-a-ab"` the needle
`"a-a"` occurs at offsets 0 and 2; the occurrence at 0 passes both
word-boundary checks and ends before `start = 6`, so the claim demands
that the backward whole-word search return 0.  The code instead rejects
the candidate at 2 (followed by the alphanumeric `b`) and then searches
only the prefix of length 1, which cannot contain the overlapping valid
occurrence at 0 — so it returns `wxNOT_FOUND`. -/
theorem find_text_whole_word_counterexample :
    find_text none ("a-a-ab".toList) ("a-a".toList) 6 ⟨false, true, true, false⟩ = wxNOT_FOUND ∧
    validWordOcc ("a-a-ab".toList) ("a-a-ab".toList) ("a-a".toList) 0 = true ∧
    0 + ("a-a".toList).length ≤ 6 := by
  refine ⟨?_, by decide, by decide⟩
  have hu : find_text none ("a-a-ab".toList) ("a-a".toList) 6 ⟨false, true, true, false⟩ =
      wwLoopB ("a-a-ab".toList) ("a-a-ab".toList) ("a-a".toList) 6 := by
    rw [find_text, if_neg (by decide)]
    rfl
  rw [hu]
  have h1 : rfindIn (("a-a-ab".toList).take 6) ("a-a".toList) = some 2 := by decide
  have hb : (wordStartOk ("a-a-ab".toList) 2 &&
      wordEndOk ("a-a-ab".toList) (2 + ("a-a".toList).length)) = false := by decide
  rw [wwLoopB]
  rw [h1]
  simp only [hb, Bool.false_eq_true, if_false, if_neg (by decide : ¬(2 : Nat) = 0)]
  have h2 : rfindIn (("a-a-ab".toList).take (2 - 1)) ("a-a".toList) = none := by decide
  rw [wwLoopB]
  rw [h2]

/-- Claim C3 (amended): backward regex search.  For every haystack,
non-empty pattern and start offset, `find_text` with `use_regex` set and
`forward` unset synthesizes the result by repeated forward searches,
each restarting `std::regex_search` at the cursor one position past the
found match's start.  Provided the compiled pattern's matches do not
depend on where the engine was restarted (`occ cur i e = occ 0 i e`:
with default flags `std::regex` re-anchors `^` and re-evaluates `\b` at
every restarted cursor, so cursor-anchored patterns are excluded) and
every match consumes at least one character (`occ cur i e → i < e`:
nullable patterns are excluded), the result is the start offset of the
rightmost match inside the window `[0, min start length)` — the
rightmost match strictly before `start` once `start` is clamped to the
text length — and `wxNOT_FOUND` when that window holds no match.  For
the excluded patterns the loop can instead report a pseudo-match of an
anchor at a restarted cursor, or an empty match exactly at the window
end (see the counterexample). -/
theorem find_text_backward_regex_rightmost :
    ∀ (occ : Nat → Nat → Nat → Bool) (hay ned : List Char) (start : Nat) (mc ww : Bool),
      ned ≠ [] →
      (∀ cur i e', occ cur i e' = occ 0 i e') →
      (∀ cur i e', occ cur i e' = true → i < e') →
      find_text (some occ) hay ned start ⟨false, mc, ww, true⟩ =
        optToLong (maxSat (fun i => occ 0 i (min start hay.length)) (min start hay.length)) := by
  intro occ hay ned start mc ww hne hind hne2
  have hu : find_text (some occ) hay ned start ⟨false, mc, ww, true⟩ =
      regexBackLoop occ (min start hay.length) 0 wxNOT_FOUND := by
    rw [find_text, if_neg hne]
    rfl
  rw [hu]
  apply regexBackLoop_max occ (min start hay.length) hind hne2
  rw [show min 0 (min start hay.length + 1) = 0 from by omega]
  rfl

/-- Witness for the amended C3: a cursor-independent,
one-character-consuming abstract pattern matching only at offset 2;
backward search from 4 finds 2. -/
theorem find_text_backward_regex_rightmost_witness :
    find_text (some (fun _ i e => decide (i + 1 ≤ e) && decide (i = 2)))
        ("abcd".toList) ("x".toList) 4 ⟨false, false, false, true⟩ =
      optToLong (maxSat
        (fun i => decide (i + 1 ≤ min 4 ("abcd".toList).length) && decide (i = 2))
        (min 4 ("abcd".toList).length)) :=
  find_text_backward_regex_rightmost (fun _ i e => decide (i + 1 ≤ e) && decide (i = 2))
    ("abcd".toList) ("x".toList) 4 false false (by decide)
    (fun _ _ _ => rfl)
    (by
      intro cur i e h
      simp only [Bool.and_eq_true, decide_eq_true_eq] at h
      omega)

/-- Counterexample to claim C3 as stated, twice over.  First, the loop
restarts `std::regex_search` at each advanced cursor, and with default
flags the engine re-anchors `^` (and `\b`) at that cursor: for the
pattern `^a` on `"aa"` with `start = 2` (modelled by the matcher
`occ cur i e` true iff `i = cur` with a character left) the code
returns `1` — a pseudo-match where `^` matched a restarted cursor —
although the only match of `^a` in the window `[0, 2)` is at offset
`0`.  Second, with a nullable pattern — the abstract matcher of `$`,
matching the empty string exactly at the window end — the search on
`"bbbbb"` from `start = 5` returns `5`, an empty match at `start`
itself, although the window `[0, 5)` holds no match at all, where the
claim ("the rightmost match lying strictly before start, NOT_FOUND
when no match exists in the window") demands `wxNOT_FOUND`. -/
theorem find_text_backward_regex_counterexample :
    find_text (some (fun cur i e => decide (i = cur) && decide (i + 1 ≤ e)))
        ("aa".toList) ("^a".toList) 2 ⟨false, false, false, true⟩ = 1 ∧
    maxSat (fun i => decide (i = 0) && decide (i + 1 ≤ min 2 ("aa".toList).length))
        (min 2 ("aa".toList).length) = some 0 ∧
    (1 : Int) ≠ 0 ∧
    find_text (some (fun _ i e => decide (i = e))) ("bbbbb".toList) ("$".toList) 5
        ⟨false, false, false, true⟩ = 5 ∧
    maxSat (fun i => decide (i = min 5 ("bbbbb".toList).length))
        (min 5 ("bbbbb".toList).length) = none ∧
    (5 : Int) ≠ wxNOT_FOUND := by
  refine ⟨?_, by decide, by decide, ?_, by decide, by decide⟩
  · have hu : find_text (some (fun cur i e => decide (i = cur) && decide (i + 1 ≤ e)))
        ("aa".toList) ("^a".toList) 2 ⟨false, false, false, true⟩ =
        regexBackLoop (fun cur i e => decide (i = cur) && decide (i + 1 ≤ e)) 2 0
          wxNOT_FOUND := by
      rw [find_text, if_neg (by decide)]
      rfl
    rw [hu]
    have h1 : regexSearch (fun cur i e => decide (i = cur) && decide (i + 1 ≤ e)) 0 2 =
        some 0 := by decide
    have h2 : regexSearch (fun cur i e => decide (i = cur) && decide (i + 1 ≤ e)) 1 2 =
        some 1 := by decide
    have h3 : regexSearch (fun cur i e => decide (i = cur) && decide (i + 1 ≤ e)) 2 2 =
        none := by decide
    rw [regexBackLoop, if_neg (by decide : ¬(2 : Nat) < 0)]
    rw [h1]
    show regexBackLoop (fun cur i e => decide (i = cur) && decide (i + 1 ≤ e)) 2 (0 + 1)
        ((0 : Nat) : Int) = 1
    rw [regexBackLoop, if_neg (by decide : ¬(2 : Nat) < 0 + 1)]
    rw [h2]
    show regexBackLoop (fun cur i e => decide (i = cur) && decide (i + 1 ≤ e)) 2 (1 + 1)
        ((1 : Nat) : Int) = 1
    rw [regexBackLoop, if_neg (by decide : ¬(2 : Nat) < 1 + 1)]
    rw [h3]
    rfl
  · have hu : find_text (some (fun _ i e => decide (i = e))) ("bbbbb".toList) ("$".toList) 5
        ⟨false, false, false, true⟩ =
        regexBackLoop (fun _ i e => decide (i = e)) 5 0 wxNOT_FOUND := by
      rw [find_text, if_neg (by decide)]
      rfl
    rw [hu]
    have h1 : regexSearch (fun _ i e => decide (i = e)) 0 5 = some 5 := by decide
    rw [regexBackLoop, if_neg (by decide : ¬(5 : Nat) < 0)]
    rw [h1]
    show regexBackLoop (fun _ i e => decide (i = e)) 5 (5 + 1) ((5 : Nat) : Int) = 5
    rw [regexBackLoop, if_pos (by decide : (5 : Nat) < 5 + 1)]
    rfl

/-- Claim C9: whole-word loop termination.  For every haystack,
non-empty needle, start offset and direction, the candidate-scanning
loop of the literal search (a total function here, with the decrease of
its search position/window as the termination argument) returns either
`wxNOT_FOUND` — in particular when the search space is exhausted or the
scan runs off either end of the buffer — or the offset of an accepted
boundary-valid candidate.  It never loops forever. -/
theorem find_text_whole_word_terminates :
    ∀ (rx : Option (Nat → Nat → Nat → Bool)) (hay ned : List Char) (start : Nat)
      (opts : find_options),
      opts.match_whole_word = true → opts.use_regex = false → ned ≠ [] →
      (find_text rx hay ned start opts = wxNOT_FOUND ∨
        ∃ c : Nat, find_text rx hay ned start opts = (c : Int) ∧
          validWordOcc hay (if opts.match_case then hay else hay.map Char.toLower)
            (if opts.match_case then ned else ned.map Char.toLower) c = true) := by
  intro rx hay ned start opts hww hrg hne
  rcases opts with ⟨fwd, mc, ww, rg⟩
  simp only at hww hrg
  subst hww
  subst hrg
  rcases fwd with _ | _
  · have hu : find_text rx hay ned start ⟨false, mc, true, false⟩ =
        wwLoopB hay (if mc then hay else hay.map Char.toLower)
          (if mc then ned else ned.map Char.toLower) start := by
      rw [find_text, if_neg hne]
      rfl
    rw [hu]
    exact wwLoopB_cases hay _ _ start
  · have hu : find_text rx hay ned start ⟨true, mc, true, false⟩ =
        wwLoopF hay (if mc then hay else hay.map Char.toLower)
          (if mc then ned else ned.map Char.toLower) start := by
      rw [find_text, if_neg hne]
      rfl
    rw [hu]
    exact wwLoopF_cases hay _ _ start

/-- Witness for C9 at a concrete backward whole-word search. -/
theorem find_text_whole_word_terminates_witness :
    find_text none ("ab cd".toList) ("cd".toList) 5 ⟨false, true, true, false⟩ = wxNOT_FOUND ∨
      ∃ c : Nat, find_text none ("ab cd".toList) ("cd".toList) 5
          ⟨false, true, true, false⟩ = (c : Int) ∧
        validWordOcc ("ab cd".toList)
          (if (⟨false, true, true, false⟩ : find_options).match_case then "ab cd".toList
            else ("ab cd".toList).map Char.toLower)
          (if (⟨false, true, true, false⟩ : find_options).match_case then "cd".toList
            else ("cd".toList).map Char.toLower) c = true :=
  find_text_whole_word_terminates none ("ab cd".toList) ("cd".toList) 5
    ⟨false, true, true, false⟩ rfl rfl (by decide)

/-- Claim C8: error collapse.  `find_text` returns `wxNOT_FOUND` for an
empty needle, whatever the options and compiled pattern; with
`use_regex` set, a pattern that failed to compile (or whose matching
raised — the `catch (...)` path, modelled by `none`) also yields
`wxNOT_FOUND`; and in all cases the function's only outcomes are a
non-negative offset or `wxNOT_FOUND` — no exception escapes, as the
model is a total function. -/
theorem find_text_error_collapse :
    (∀ (rx : Option (Nat → Nat → Nat → Bool)) (hay ned : List Char) (start : Nat)
      (opts : find_options), ned = [] → find_text rx hay ned start opts = wxNOT_FOUND) ∧
    (∀ (hay ned : List Char) (start : Nat) (opts : find_options),
      opts.use_regex = true → find_text none hay ned start opts = wxNOT_FOUND) ∧
    (∀ (rx : Option (Nat → Nat → Nat → Bool)) (hay ned : List Char) (start : Nat)
      (opts : find_options),
      find_text rx hay ned start opts = wxNOT_FOUND ∨
        0 ≤ find_text rx hay ned start opts) := by
  refine ⟨?_, ?_, ?_⟩
  · intro rx hay ned start opts h
    rw [find_text, if_pos h]
  · intro hay ned start opts hrg
    by_cases hne : ned = []
    · rw [find_text, if_pos hne]
    · rw [find_text, if_neg hne]
      simp only [hrg, if_true]
      rfl
  · intro rx hay ned start opts
    by_cases hne : ned = []
    · left
      rw [find_text, if_pos hne]
    · rcases opts with ⟨fwd, mc, ww, rg⟩
      rcases rg with _ | _
      · -- literal strategy
        rcases ww with _ | _
        · -- plain substring search
          have hu : find_text rx hay ned start ⟨fwd, mc, false, false⟩ =
              (if fwd then
                optToLong (findFrom (if mc then hay else hay.map Char.toLower)
                  (if mc then ned else ned.map Char.toLower) start)
              else
                optToLong (rfindIn (((if mc then hay else hay.map Char.toLower)).take start)
                  (if mc then ned else ned.map Char.toLower))) := by
            rw [find_text, if_neg hne]
            rcases fwd with _ | _ <;> rfl
          rw [hu]
          rcases fwd with _ | _
          · simp only [Bool.false_eq_true, if_false]
            rcases rfindIn (((if mc then hay else hay.map Char.toLower)).take start)
                (if mc then ned else ned.map Char.toLower) with _ | c
            · left; rfl
            · right; simp [optToLong]
          · simp only [if_true]
            rcases findFrom (if mc then hay else hay.map Char.toLower)
                (if mc then ned else ned.map Char.toLower) start with _ | c
            · left; rfl
            · right; simp [optToLong]
        · -- whole-word loops
          rcases fwd with _ | _
          · have hu : find_text rx hay ned start ⟨false, mc, true, false⟩ =
                wwLoopB hay (if mc then hay else hay.map Char.toLower)
                  (if mc then ned else ned.map Char.toLower) start := by
              rw [find_text, if_neg hne]
              rfl
            rw [hu]
            rcases wwLoopB_cases hay (if mc then hay else hay.map Char.toLower)
                (if mc then ned else ned.map Char.toLower) start with h | ⟨c, hc, _⟩
            · left; exact h
            · right; rw [hc]; omega
          · have hu : find_text rx hay ned start ⟨true, mc, true, false⟩ =
                wwLoopF hay (if mc then hay else hay.map Char.toLower)
                  (if mc then ned else ned.map Char.toLower) start := by
              rw [find_text, if_neg hne]
              rfl
            rw [hu]
            rcases wwLoopF_cases hay (if mc then hay else hay.map Char.toLower)
                (if mc then ned else ned.map Char.toLower) start with h | ⟨c, hc, _⟩
            · left; exact h
            · right; rw [hc]; omega
      · -- regex strategy
        rcases rx with _ | occ
        · left
          rw [find_text, if_neg hne]
          rfl
        · rcases fwd with _ | _
          · have hu : find_text (some occ) hay ned start ⟨false, mc, ww, true⟩ =
                regexBackLoop occ (min start hay.length) 0 wxNOT_FOUND := by
              rw [find_text, if_neg hne]
              rfl
            rw [hu]
            exact regexBackLoop_sign occ (min start hay.length) 0 wxNOT_FOUND (Or.inl rfl)
          · have hu : find_text (some occ) hay ned start ⟨true, mc, ww, true⟩ =
                optToLong (regexSearch occ (min start hay.length) hay.length) := by
              rw [find_text, if_neg hne]
              rfl
            rw [hu]
            rcases regexSearch occ (min start hay.length) hay.length with _ | i
            · left; rfl
            · right; simp [optToLong]

/-- Witness for C8: an empty needle and a failed compilation both give
`wxNOT_FOUND`. -/
theorem find_text_error_collapse_witness :
    find_text none ("abc".toList) ("(".toList) 0 ⟨true, true, false, true⟩ = wxNOT_FOUND :=
  find_text_error_collapse.2.1 ("abc".toList) ("(".toList) 0 ⟨true, true, false, true⟩ rfl
